import Mathlib

/-!
# Binary search tree and map (EECS 280 project 5)

A shallow embedding of `BinarySearchTree.hpp` and `Map.hpp`.

* A `Node *` of the source is a value of `Node T`: `Node.null` is `nullptr`, and
  `Node.mk datum left right` is a pointer to a node, seen together with everything
  reachable from it.  Pointer identity between two non-null pointers is not
  represented; the only pointer comparison the development relies on is the
  comparison against `nullptr` (`Iterator.is_end`).
* The comparator object `Compare less` is a function `less : T → T → Bool`.
* `int`/`size_t` results are natural numbers (no tree in the development comes
  near `2^31` nodes, where the source's `int` arithmetic would overflow).
* `std::ostream` is the string written so far; `operator<<` on an element is a
  parameter `fmt : T → String`.
* `assert` failing is `Outcome.aborted`, carrying the object as it stands when the
  assertion fires; dereferencing or advancing a past-the-end iterator (a null
  pointer dereference in the source) is `none`.
-/

namespace Bst

variable {T K V : Type}

/-! ## Nodes and the private `_impl` functions -/

/-- A `Node *`: null, or a node with its `datum`, `left` and `right` members. -/
inductive Node (T : Type) where
  | null : Node T
  | mk (datum : T) (left : Node T) (right : Node T) : Node T
  deriving DecidableEq

/-- Source `empty_impl`: `return !node;`. -/
def empty_impl : Node T → Bool
  | .null => true
  | .mk _ _ _ => false

/-- Source `size_impl`: `1 + size_impl(left) + size_impl(right)`, `0` on null. -/
def size_impl : Node T → Nat
  | .null => 0
  | .mk _ l r => 1 + size_impl l + size_impl r

/-- Source `height_impl`: `1 + max(height_impl(left), height_impl(right))`, `0` on null. -/
def height_impl : Node T → Nat
  | .null => 0
  | .mk _ l r => 1 + max (height_impl l) (height_impl r)

/-- Source `copy_nodes_impl`: a fresh node with the same datum and copied children. -/
def copy_nodes_impl : Node T → Node T
  | .null => .null
  | .mk d l r => .mk d (copy_nodes_impl l) (copy_nodes_impl r)

/-- Source `find_impl`: the `while (node)` descent; returns the first node met that is
neither less than nor greater than `query`, or null. -/
def find_impl : Node T → T → (T → T → Bool) → Node T
  | .null, _, _ => .null
  | .mk d l r, query, less =>
    if !less d query && !less query d then .mk d l r
    else if less d query then find_impl r query less
    else find_impl l query less

/-- Source `insert_impl`: a new leaf on null, otherwise recurse left when
`less(item, datum)` and right otherwise. -/
def insert_impl : Node T → T → (T → T → Bool) → Node T
  | .null, item, _ => .mk item .null .null
  | .mk d l r, item, less =>
    if less item d then .mk d (insert_impl l item less) r
    else .mk d l (insert_impl r item less)

/-- Source `min_element_impl`: null on null, otherwise follow `left` while it is set. -/
def min_element_impl : Node T → Node T
  | .null => .null
  | .mk d .null r => .mk d .null r
  | .mk _ (.mk d' l' r') _ => min_element_impl (.mk d' l' r')

/-- Source `max_element_impl`: null on null, otherwise follow `right` while it is set. -/
def max_element_impl : Node T → Node T
  | .null => .null
  | .mk d l .null => .mk d l .null
  | .mk _ _ (.mk d' l' r') => max_element_impl (.mk d' l' r')

/-- Source `check_sorting_invariant_impl`: fails when the left child's datum is greater
than the node's or the right child's datum is less than the node's, then recurses. -/
def check_sorting_invariant_impl : Node T → (T → T → Bool) → Bool
  | .null, _ => true
  | .mk d l r, less =>
    if (match l with
        | .null => false
        | .mk dl _ _ => less d dl) ||
       (match r with
        | .null => false
        | .mk dr _ _ => less dr d) then false
    else check_sorting_invariant_impl l less && check_sorting_invariant_impl r less

/-- Source `traverse_inorder_impl`: left subtree, then `os << datum << " "`, then right
subtree. -/
def traverse_inorder_impl (fmt : T → String) : Node T → String → String
  | .null, os => os
  | .mk d l r, os =>
    traverse_inorder_impl fmt r (traverse_inorder_impl fmt l os ++ fmt d ++ " ")

/-- Source `traverse_preorder_impl`: `os << datum << " "`, then left subtree, then right
subtree. -/
def traverse_preorder_impl (fmt : T → String) : Node T → String → String
  | .null, os => os
  | .mk d l r, os =>
    traverse_preorder_impl fmt r (traverse_preorder_impl fmt l (os ++ fmt d ++ " "))

/-- The `while (node)` loop of the source `min_greater_than_impl`, with the local
variable `successor` as third argument. -/
def min_greater_than_loop : Node T → T → Node T → (T → T → Bool) → Node T
  | .null, _, successor, _ => successor
  | .mk d l r, val, successor, less =>
    if less val d then min_greater_than_loop l val (.mk d l r) less
    else min_greater_than_loop r val successor less

/-- Source `min_greater_than_impl`: the loop started with `successor = nullptr`. -/
def min_greater_than_impl (node : Node T) (val : T) (less : T → T → Bool) : Node T :=
  min_greater_than_loop node val .null less

/-! ## The public classes -/

/-- The class `BinarySearchTree`: its `root` member (the comparator member `less` is
stateless and passed to the operations). -/
structure BinarySearchTree (T : Type) where
  root : Node T
  deriving DecidableEq

/-- The class `BinarySearchTree::Iterator`: its `root` and `current_node` members. -/
structure Iterator (T : Type) where
  root : Node T
  current_node : Node T
  deriving DecidableEq

/-- What a call that may trip an `assert` does: it aborts, leaving the object in
`state`, or returns `value` with the object in `state`. -/
inductive Outcome (σ α : Type) where
  | aborted (state : σ) : Outcome σ α
  | returned (state : σ) (value : α) : Outcome σ α
  deriving DecidableEq

/-- Source `Iterator()`: both pointers null. -/
def Iterator.default : Iterator T := ⟨.null, .null⟩

/-- Source `Iterator::operator==` with a past-the-end right-hand side
(`it == end()`): `current_node == nullptr`. -/
def Iterator.is_end (it : Iterator T) : Bool := empty_impl it.current_node

/-- Source `Iterator::operator*`: `current_node->datum`; a null dereference is `none`. -/
def Iterator.deref (it : Iterator T) : Option T :=
  match it.current_node with
  | .null => none
  | .mk d _ _ => some d

/-- Source `Iterator::operator++`: the leftmost node of the right subtree when there is
a right child, otherwise `min_greater_than_impl` from the root; a null dereference is
`none`. -/
def Iterator.incr (it : Iterator T) (less : T → T → Bool) : Option (Iterator T) :=
  match it.current_node with
  | .null => none
  | .mk d _ r =>
    if !empty_impl r then some ⟨it.root, min_element_impl r⟩
    else some ⟨it.root, min_greater_than_impl it.root d less⟩

namespace BinarySearchTree

/-- Source default constructor: `root(nullptr)`. -/
def new : BinarySearchTree T := ⟨.null⟩

/-- Source `empty`. -/
def empty (t : BinarySearchTree T) : Bool := empty_impl t.root

/-- Source `height`. -/
def height (t : BinarySearchTree T) : Nat := height_impl t.root

/-- Source `size`. -/
def size (t : BinarySearchTree T) : Nat := size_impl t.root

/-- Source `traverse_inorder`. -/
def traverse_inorder (t : BinarySearchTree T) (fmt : T → String) (os : String) : String :=
  traverse_inorder_impl fmt t.root os

/-- Source `traverse_preorder`. -/
def traverse_preorder (t : BinarySearchTree T) (fmt : T → String) (os : String) : String :=
  traverse_preorder_impl fmt t.root os

/-- Source `check_sorting_invariant`. -/
def check_sorting_invariant (t : BinarySearchTree T) (less : T → T → Bool) : Bool :=
  check_sorting_invariant_impl t.root less

/-- Source `begin`: `Iterator()` on the empty tree, otherwise at `min_element_impl(root)`. -/
def begin (t : BinarySearchTree T) : Iterator T :=
  if empty_impl t.root then Iterator.default else ⟨t.root, min_element_impl t.root⟩

/-- Source `end`: `Iterator()`. -/
def end_ (_t : BinarySearchTree T) : Iterator T := Iterator.default

/-- Source `min_element`. -/
def min_element (t : BinarySearchTree T) : Iterator T := ⟨t.root, min_element_impl t.root⟩

/-- Source `max_element`. -/
def max_element (t : BinarySearchTree T) : Iterator T := ⟨t.root, max_element_impl t.root⟩

/-- Source `min_greater_than`. -/
def min_greater_than (t : BinarySearchTree T) (value : T) (less : T → T → Bool) : Iterator T :=
  ⟨t.root, min_greater_than_impl t.root value less⟩

/-- Source `find`. -/
def find (t : BinarySearchTree T) (query : T) (less : T → T → Bool) : Iterator T :=
  ⟨t.root, find_impl t.root query less⟩

/-- Source `insert`: `assert(find(item) == end())`, then `root = insert_impl(...)`, then
`return find(item)`. -/
def insert (t : BinarySearchTree T) (item : T) (less : T → T → Bool) :
    Outcome (BinarySearchTree T) (Iterator T) :=
  if (t.find item less).is_end then
    let t' : BinarySearchTree T := ⟨insert_impl t.root item less⟩
    .returned t' (t'.find item less)
  else .aborted t

/-- Source `to_string`: the in-order traversal written to a fresh string stream. -/
def to_string (t : BinarySearchTree T) (fmt : T → String) : String :=
  t.traverse_inorder fmt ""

end BinarySearchTree

/-! ## The map adaptor -/

/-- Source `Map::PairComp`: compares the `first` members with `Key_compare`. -/
def PairComp (key_compare : K → K → Bool) (lhs rhs : K × V) : Bool :=
  key_compare lhs.1 rhs.1

/-- The class `Map`: its `bst` member. -/
structure Map (K V : Type) where
  bst : BinarySearchTree (K × V)
  deriving DecidableEq

namespace Map

/-- Source `Map() = default`. -/
def new : Map K V := ⟨BinarySearchTree.new⟩

/-- Source `Map::empty`. -/
def empty (m : Map K V) : Bool := m.bst.empty

/-- Source `Map::size`. -/
def size (m : Map K V) : Nat := m.bst.size

/-- Source `Map::end`. -/
def end_ (m : Map K V) : Iterator (K × V) := m.bst.end_

/-- Source `Map::begin`. -/
def begin (m : Map K V) : Iterator (K × V) := m.bst.begin

/-- Source `Map::find`: looks up the dummy pair `{k, Value_type()}`; `vinit` is
`Value_type()`. -/
def find (m : Map K V) (k : K) (key_compare : K → K → Bool) (vinit : V) : Iterator (K × V) :=
  m.bst.find (k, vinit) (PairComp key_compare)

/-- Source `Map::insert`: calls `bst.insert(val)` first; when the returned iterator is
not `end()` answers `(inserted, true)`, otherwise `(find(val.first), false)`. -/
def insert (m : Map K V) (val : K × V) (key_compare : K → K → Bool) (vinit : V) :
    Outcome (Map K V) (Iterator (K × V) × Bool) :=
  match m.bst.insert val (PairComp key_compare) with
  | .aborted b => .aborted ⟨b⟩
  | .returned b inserted =>
    if !inserted.is_end then .returned ⟨b⟩ (inserted, true)
    else .returned ⟨b⟩ (find ⟨b⟩ val.1 key_compare vinit, false)

end Map

/-! ## Specification vocabulary -/

/-- Comparator equality of the source (`!less(a, b) && !less(b, a)`). -/
def equiv (less : T → T → Bool) (a b : T) : Bool := !less a b && !less b a

/-- A strict weak ordering: irreflexive, transitive, and with a transitive
incomparability relation. -/
structure StrictWeakOrder (less : T → T → Bool) : Prop where
  irrefl : ∀ a, less a a = false
  trans : ∀ a b c, less a b = true → less b c = true → less a c = true
  incomp_trans : ∀ a b c, equiv less a b = true → equiv less b c = true → equiv less a c = true

/-- The elements below a node, left subtree first, then the datum, then the right
subtree. -/
def elems : Node T → List T
  | .null => []
  | .mk d l r => elems l ++ d :: elems r

/-- The global ordering of a tree: at every node, everything in the left subtree is less
than the datum and everything in the right subtree is greater. -/
def Ordered (less : T → T → Bool) : Node T → Prop
  | .null => True
  | .mk d l r =>
    (∀ x ∈ elems l, less x d = true) ∧ (∀ x ∈ elems r, less d x = true) ∧
      Ordered less l ∧ Ordered less r

/-- The text written for a sequence of elements: each one followed by a space. -/
def render (fmt : T → String) : List T → String
  | [] => ""
  | x :: xs => fmt x ++ " " ++ render fmt xs

/-- Inserting the elements of a list one by one, front first; `none` as soon as one
insertion aborts. -/
def insert_seq (less : T → T → Bool) : BinarySearchTree T → List T → Option (BinarySearchTree T)
  | t, [] => some t
  | t, x :: xs =>
    match t.insert x less with
    | .aborted _ => none
    | .returned t' _ => insert_seq less t' xs

/-- A tree obtained from the empty tree by insertions that all return. -/
def InsertionBuilt (less : T → T → Bool) (t : BinarySearchTree T) : Prop :=
  ∃ xs, insert_seq less BinarySearchTree.new xs = some t

/-- The comparator `std::less<int>` on natural numbers. -/
def natLess (a b : Nat) : Bool := decide (a < b)

/-- The node pointers of a tree: `Reaches n c` says that `c` points to a node of the tree
under `n` (so `c` is not null). -/
def Reaches : Node T → Node T → Prop
  | .null, _ => False
  | .mk d l r, c => c = .mk d l r ∨ Reaches l c ∨ Reaches r c

/-- The element `a` is the smallest element of `s` strictly greater than `v`. -/
def IsLeastGreater (less : T → T → Bool) (s : List T) (v a : T) : Prop :=
  a ∈ s ∧ less v a = true ∧ ∀ x ∈ s, less v x = true → less x a = false

/-- The loop `for (auto it = first; it != end(); ++it) elements.push_back(*it);` of the
tests, run for at most `fuel` rounds.  The result is the elements collected together with
the number of `++` executed; it is `none` when the rounds run out before the iterator
equals `end()` or when a past-the-end iterator is dereferenced or advanced. -/
def iterate (less : T → T → Bool) : Nat → Iterator T → Option (List T × Nat)
  | 0, it => if it.is_end then some ([], 0) else none
  | fuel + 1, it =>
    if it.is_end then some ([], 0)
    else
      match it.deref, it.incr less with
      | some v, some it' => (iterate less fuel it').map (fun p => (v :: p.1, p.2 + 1))
      | _, _ => none

/-! ## Copying, and the height of the specification -/

/-- Source `destroy_nodes_impl`: releases both subtrees and then the node; it computes
nothing, and the nodes it is given are gone afterwards. -/
def destroy_nodes_impl : Node T → Unit
  | .null => ()
  | .mk _ l r =>
    let _ := destroy_nodes_impl l
    let _ := destroy_nodes_impl r
    ()

/-- Source copy constructor: `root(copy_nodes_impl(other.root))`. -/
def BinarySearchTree.copy (other : BinarySearchTree T) : BinarySearchTree T :=
  ⟨copy_nodes_impl other.root⟩

/-- Source `operator=`.  The argument `same` is the outcome of the test `this == &rhs`
(when it holds, `rhs` is the target itself).  The result is the target followed by the
right-hand side, as they stand when the call returns. -/
def BinarySearchTree.assign (this rhs : BinarySearchTree T) (same : Bool) :
    BinarySearchTree T × BinarySearchTree T :=
  if same then (this, rhs)
  else
    let _ := destroy_nodes_impl this.root
    (⟨copy_nodes_impl rhs.root⟩, rhs)

/-- The root-to-leaf paths of a tree, each one the list of the elements met from the root
down to a node without children (the paths whose longest one the specification calls
the height). -/
def root_to_leaf_paths : Node T → List (List T)
  | .null => []
  | .mk d l r =>
    if empty_impl l && empty_impl r then [[d]]
    else (root_to_leaf_paths l ++ root_to_leaf_paths r).map (fun p => d :: p)

/-- The tree in which no node has a left child, holding the elements of a list from the
root downwards. -/
def right_spine : List T → Node T
  | [] => .null
  | x :: xs => .mk x .null (right_spine xs)

/-! ## Printing, `Map::operator[]` and runs of map calls -/

/-- The range-for loop of the source `operator<<`, `for (T& elt : tree) os << elt << " ";`:
an iterator taken from `begin()` and advanced until it equals `end()`, run for at most
`fuel` rounds.  It is `none` when the rounds run out before the end or when a past-the-end
iterator is dereferenced or advanced. -/
def print_loop (less : T → T → Bool) (fmt : T → String) : Nat → Iterator T → String → Option String
  | 0, it, os => if it.is_end then some os else none
  | fuel + 1, it, os =>
    if it.is_end then some os
    else
      match it.deref, it.incr less with
      | some elt, some it' => print_loop less fmt fuel it' (os ++ fmt elt ++ " ")
      | _, _ => none

/-- Source `operator<<` for a tree: `os << "[ "`, the range-for loop, then `os << "]"`. -/
def operator_print (os : String) (tree : BinarySearchTree T) (less : T → T → Bool)
    (fmt : T → String) (fuel : Nat) : Option String :=
  match print_loop less fmt fuel tree.begin (os ++ "[ ") with
  | none => none
  | some os' => some (os' ++ "]")

/-- Source `Map::operator[]`: `find(k)`, an `insert({k, Value_type()})` when that is
`end()`, then `(*it).second`; the value is `none` on a null dereference. -/
def Map.operator_subscript (m : Map K V) (k : K) (key_compare : K → K → Bool) (vinit : V) :
    Outcome (Map K V) (Option V) :=
  let it := m.find k key_compare vinit
  if it.is_end then
    match m.insert (k, vinit) key_compare vinit with
    | .aborted m' => .aborted m'
    | .returned m' (it', _) => .returned m' (it'.deref.map Prod.snd)
  else .returned m (it.deref.map Prod.snd)

/-- A call made on a map: `m[k]` or `m.insert(val)`. -/
inductive MapCall (K V : Type) where
  | subscript (k : K) : MapCall K V
  | insert (val : K × V) : MapCall K V

/-- A sequence of calls made on a map one after the other; `none` as soon as one of them
aborts. -/
def Map.run (key_compare : K → K → Bool) (vinit : V) : Map K V → List (MapCall K V) → Option (Map K V)
  | m, [] => some m
  | m, .subscript k :: cs =>
    match m.operator_subscript k key_compare vinit with
    | .aborted _ => none
    | .returned m' _ => Map.run key_compare vinit m' cs
  | m, .insert val :: cs =>
    match m.insert val key_compare vinit with
    | .aborted _ => none
    | .returned m' _ => Map.run key_compare vinit m' cs

/-- The tree with every stored value replaced through `g`, the keys staying as they are. -/
def map_values (g : K × V → V) : Node (K × V) → Node (K × V)
  | .null => .null
  | .mk d l r => .mk (d.1, g d) (map_values g l) (map_values g r)

/-! ## Pre-order, local invariants and positions -/

/-- The elements below a node in pre-order: the datum, then the left subtree, then the
right subtree. -/
def preorder_elems : Node T → List T
  | .null => []
  | .mk d l r => d :: (preorder_elems l ++ preorder_elems r)

/-- The pairwise local invariant as the specification words it: at every node, a left
child, where there is one, holds an element strictly less than the node's, and a right
child, where there is one, holds an element strictly greater. -/
def SpecLocalInvariant (less : T → T → Bool) (n : Node T) : Prop :=
  ∀ d l r, Reaches n (.mk d l r) →
    (∀ dl ll rl, l = .mk dl ll rl → less dl d = true) ∧
      (∀ dr lr rr, r = .mk dr lr rr → less d dr = true)

/-- No parent and child are the wrong way round: at every node, the node's element is not
less than that of a left child, and the element of a right child is not less than the
node's. -/
def NoInversion (less : T → T → Bool) (n : Node T) : Prop :=
  ∀ d l r, Reaches n (.mk d l r) →
    (∀ dl ll rl, l = .mk dl ll rl → less d dl = false) ∧
      (∀ dr lr rr, r = .mk dr lr rr → less dr d = false)

/-- A step down from a node: to its `left` or to its `right` child. -/
inductive Dir where
  | left : Dir
  | right : Dir
  deriving DecidableEq

/-- The element stored at a position, the position being the steps that lead to it from
the root; `none` where there is no node. -/
def datum_at : Node T → List Dir → Option T
  | .null, _ => none
  | .mk d _ _, [] => some d
  | .mk _ l _, .left :: q => datum_at l q
  | .mk _ _ r, .right :: q => datum_at r q

/-- The position at which the descent of `insert_impl` ends: left when
`less(item, datum)`, right otherwise, until a null pointer is met. -/
def insert_path : Node T → T → (T → T → Bool) → List Dir
  | .null, _, _ => []
  | .mk d l r, item, less =>
    if less item d then .left :: insert_path l item less
    else .right :: insert_path r item less

/-! ## Orderings -/

theorem natLess_swo : StrictWeakOrder natLess := by
  refine ⟨?_, ?_, ?_⟩
  · intro a; simp [natLess]
  · intro a b c; simp only [natLess, decide_eq_true_eq]; omega
  · intro a b c; simp only [equiv, natLess, Bool.and_eq_true, Bool.not_eq_true',
      decide_eq_false_iff_not]; omega

theorem StrictWeakOrder.asymm {less : T → T → Bool} (h : StrictWeakOrder less) {a b : T}
    (hab : less a b = true) : less b a = false := by
  cases hba : less b a with
  | false => rfl
  | true => exact absurd (h.trans a b a hab hba) (by simp [h.irrefl])

theorem equiv_iff {less : T → T → Bool} {a b : T} :
    equiv less a b = true ↔ less a b = false ∧ less b a = false := by
  simp [equiv]

theorem equiv_false_iff {less : T → T → Bool} {a b : T} :
    equiv less a b = false ↔ less a b = true ∨ less b a = true := by
  cases h1 : less a b <;> cases h2 : less b a <;> simp [equiv, h1, h2]

theorem equiv_comm {less : T → T → Bool} (a b : T) : equiv less a b = equiv less b a := by
  simp [equiv, Bool.and_comm]

theorem StrictWeakOrder.equiv_refl {less : T → T → Bool} (h : StrictWeakOrder less) (a : T) :
    equiv less a a = true := by
  simp [equiv, h.irrefl]

/-- In a strict weak ordering an element below `b` is below everything that `b` is not
above. -/
theorem StrictWeakOrder.less_of_less_of_not_less {less : T → T → Bool}
    (h : StrictWeakOrder less) {a b c : T} (hab : less a b = true) (hcb : less c b = false) :
    less a c = true := by
  cases hac : less a c with
  | true => rfl
  | false =>
    exfalso
    have hca : less c a = false := by
      cases hca : less c a with
      | false => rfl
      | true => rw [h.trans c a b hca hab] at hcb; exact absurd hcb (by simp)
    have hbc : less b c = false := by
      cases hbc : less b c with
      | false => rfl
      | true => rw [h.trans a b c hab hbc] at hac; exact absurd hac (by simp)
    have e1 : equiv less a c = true := equiv_iff.2 ⟨hac, hca⟩
    have e2 : equiv less c b = true := equiv_iff.2 ⟨hcb, hbc⟩
    have e3 := equiv_iff.1 (h.incomp_trans a c b e1 e2)
    rw [e3.1] at hab
    exact absurd hab (by simp)

/-- In a strict weak ordering an element above `a` is above everything that `a` is not
below. -/
theorem StrictWeakOrder.less_of_not_less_of_less {less : T → T → Bool}
    (h : StrictWeakOrder less) {a b c : T} (hac : less a c = false) (hab : less a b = true) :
    less c b = true := by
  cases hcb : less c b with
  | true => rfl
  | false =>
    have := h.less_of_less_of_not_less hab hcb
    rw [this] at hac
    exact absurd hac (by simp)

/-! ## Elements, size and the traversal text -/

theorem size_impl_eq_length (n : Node T) : size_impl n = (elems n).length := by
  induction n with
  | null => rfl
  | mk d l r ihl ihr => simp [size_impl, elems, ihl, ihr]; omega

theorem render_append (fmt : T → String) (xs ys : List T) :
    render fmt (xs ++ ys) = render fmt xs ++ render fmt ys := by
  induction xs with
  | nil => simp [render]
  | cons x xs ih => simp [render, ih, String.append_assoc]

theorem traverse_inorder_impl_eq (fmt : T → String) (n : Node T) (os : String) :
    traverse_inorder_impl fmt n os = os ++ render fmt (elems n) := by
  induction n generalizing os with
  | null => simp [traverse_inorder_impl, elems, render]
  | mk d l r ihl ihr =>
    simp [traverse_inorder_impl, elems, render, render_append, ihl, ihr, String.append_assoc]

theorem empty_impl_eq_true {n : Node T} : empty_impl n = true ↔ n = .null := by
  cases n <;> simp [empty_impl]

theorem empty_impl_eq_false {n : Node T} : empty_impl n = false ↔ n ≠ .null := by
  cases n <;> simp [empty_impl]

/-! ## Insertion -/

theorem elems_insert_impl_perm (less : T → T → Bool) (item : T) (n : Node T) :
    (elems (insert_impl n item less)).Perm (item :: elems n) := by
  induction n with
  | null => simp [insert_impl, elems]
  | mk d l r ihl ihr =>
    simp only [insert_impl]
    split
    · simp only [elems]
      exact (ihl.append_right _)
    · simp only [elems]
      have h1 : (elems l ++ d :: elems (insert_impl r item less)).Perm
          (elems l ++ d :: item :: elems r) := (ihr.cons d).append_left _
      have h2 : (elems l ++ d :: item :: elems r).Perm (item :: (elems l ++ d :: elems r)) := by
        have := @List.perm_middle _ item (elems l ++ [d]) (elems r)
        simpa using this
      exact h1.trans h2

theorem mem_elems_insert_impl (less : T → T → Bool) (item x : T) (n : Node T) :
    x ∈ elems (insert_impl n item less) ↔ x = item ∨ x ∈ elems n := by
  rw [(elems_insert_impl_perm less item n).mem_iff]
  simp

theorem size_impl_insert_impl (less : T → T → Bool) (item : T) (n : Node T) :
    size_impl (insert_impl n item less) = size_impl n + 1 := by
  rw [size_impl_eq_length, size_impl_eq_length, (elems_insert_impl_perm less item n).length_eq]
  simp

theorem ordered_insert_impl {less : T → T → Bool} (item : T)
    (n : Node T) (ho : Ordered less n) (hne : ∀ e ∈ elems n, equiv less e item = false) :
    Ordered less (insert_impl n item less) := by
  induction n with
  | null => simp [insert_impl, Ordered, elems]
  | mk d l r ihl ihr =>
    obtain ⟨hl, hr, hol, hor⟩ := ho
    have hd : equiv less d item = false := hne d (by simp [elems])
    simp only [insert_impl]
    split
    · rename_i hlt
      refine ⟨?_, hr, ihl hol (fun e he => hne e (by simp [elems, he])), hor⟩
      intro x hx
      rcases (mem_elems_insert_impl less item x l).1 hx with rfl | hx
      · exact hlt
      · exact hl x hx
    · rename_i hlt
      refine ⟨hl, ?_, hol, ihr hor (fun e he => hne e (by simp [elems, he]))⟩
      intro x hx
      rcases (mem_elems_insert_impl less item x r).1 hx with rfl | hx
      · rcases equiv_false_iff.1 hd with h1 | h1
        · exact h1
        · exact absurd h1 hlt
      · exact hr x hx

/-! ## Search -/

theorem find_impl_datum (less : T → T → Bool) (q : T) (n : Node T) {d : T} {l r : Node T}
    (hf : find_impl n q less = .mk d l r) : d ∈ elems n ∧ equiv less d q = true := by
  induction n with
  | null => simp [find_impl] at hf
  | mk d' l' r' ihl ihr =>
    simp only [find_impl] at hf
    split at hf
    · rename_i he
      injection hf with h1 h2 h3
      subst h1
      exact ⟨by simp [elems], he⟩
    · split at hf
      · exact ⟨by simp [elems, (ihr hf).1], (ihr hf).2⟩
      · exact ⟨by simp [elems, (ihl hf).1], (ihl hf).2⟩

theorem find_impl_null_iff {less : T → T → Bool} (h : StrictWeakOrder less) (q : T)
    (n : Node T) (ho : Ordered less n) :
    find_impl n q less = .null ↔ ∀ e ∈ elems n, equiv less e q = false := by
  induction n with
  | null => simp [find_impl, elems]
  | mk d l r ihl ihr =>
    obtain ⟨hl, hr, hol, hor⟩ := ho
    simp only [find_impl]
    split
    · rename_i he
      simp only [false_iff, reduceCtorEq]
      intro hall
      have := hall d (by simp [elems])
      simp only [equiv] at this
      rw [he] at this
      exact absurd this (by simp)
    · rename_i he
      have hde : equiv less d q = false := by simpa [equiv] using he
      split
      · rename_i hlt
        rw [ihr hor]
        constructor
        · intro hall e hmem
          simp only [elems, List.mem_append, List.mem_cons] at hmem
          rcases hmem with hm | rfl | hm
          · exact equiv_false_iff.2 (Or.inl (h.trans e d q (hl e hm) hlt))
          · exact hde
          · exact hall e hm
        · intro hall e hmem
          exact hall e (by simp [elems, hmem])
      · rename_i hlt
        have hqd : less q d = true := by
          rcases equiv_false_iff.1 hde with h1 | h1
          · exact absurd h1 hlt
          · exact h1
        rw [ihl hol]
        constructor
        · intro hall e hmem
          simp only [elems, List.mem_append, List.mem_cons] at hmem
          rcases hmem with hm | rfl | hm
          · exact hall e hm
          · exact hde
          · exact equiv_false_iff.2 (Or.inr (h.trans q d e hqd (hr e hm)))
        · intro hall e hmem
          exact hall e (by simp [elems, hmem])

theorem ordered_elems_pairwise {less : T → T → Bool} (h : StrictWeakOrder less) (n : Node T)
    (ho : Ordered less n) : (elems n).Pairwise (fun a b => less a b = true) := by
  induction n with
  | null => simp [elems]
  | mk d l r ihl ihr =>
    obtain ⟨hl, hr, hol, hor⟩ := ho
    simp only [elems]
    rw [List.pairwise_append]
    refine ⟨ihl hol, ?_, ?_⟩
    · rw [List.pairwise_cons]
      exact ⟨hr, ihr hor⟩
    · intro a ha b hb
      rcases List.mem_cons.1 hb with rfl | hb
      · exact hl a ha
      · exact h.trans a d b (hl a ha) (hr b hb)

theorem find_impl_insert_impl {less : T → T → Bool} (h : StrictWeakOrder less) (item : T)
    (n : Node T) (hne : ∀ e ∈ elems n, equiv less e item = false) :
    find_impl (insert_impl n item less) item less = .mk item .null .null := by
  induction n with
  | null =>
    simp [insert_impl, find_impl, h.irrefl]
  | mk d l r ihl ihr =>
    have hd : equiv less d item = false := hne d (by simp [elems])
    simp only [insert_impl]
    split
    · rename_i hlt
      have hl := ihl (fun e he => hne e (by simp [elems, he]))
      have hdi : less d item = false := h.asymm hlt
      simp [find_impl, hdi, hlt, hl]
    · rename_i hlt
      have hr := ihr (fun e he => hne e (by simp [elems, he]))
      have hdi : less d item = true := by
        rcases equiv_false_iff.1 hd with h1 | h1
        · exact h1
        · exact absurd h1 hlt
      simp [find_impl, hdi, hr]

/-! ## The public `insert` and sequences of insertions -/

theorem find_is_end_iff (less : T → T → Bool) (t : BinarySearchTree T) (q : T) :
    (t.find q less).is_end = true ↔ find_impl t.root q less = .null := by
  simp [BinarySearchTree.find, Iterator.is_end, empty_impl_eq_true]

theorem insert_eq_of_absent {less : T → T → Bool} (h : StrictWeakOrder less)
    (t : BinarySearchTree T) (ho : Ordered less t.root) (item : T)
    (hne : ∀ e ∈ elems t.root, equiv less e item = false) :
    t.insert item less =
      .returned ⟨insert_impl t.root item less⟩
        ⟨insert_impl t.root item less, .mk item .null .null⟩ := by
  have hf : find_impl t.root item less = .null := (find_impl_null_iff h item t.root ho).2 hne
  simp [BinarySearchTree.insert, BinarySearchTree.find, Iterator.is_end, hf, empty_impl,
    find_impl_insert_impl h item t.root hne]

theorem insert_aborted_iff {less : T → T → Bool} (h : StrictWeakOrder less)
    (t : BinarySearchTree T) (ho : Ordered less t.root) (item : T) :
    (∃ s, t.insert item less = .aborted s) ↔ ∃ e ∈ elems t.root, equiv less e item = true := by
  constructor
  · rintro ⟨s, hs⟩
    by_contra hcon
    have hne : ∀ e ∈ elems t.root, equiv less e item = false := by
      intro e he
      cases hq : equiv less e item with
      | false => rfl
      | true => exact absurd ⟨e, he, hq⟩ hcon
    rw [insert_eq_of_absent h t ho item hne] at hs
    exact Outcome.noConfusion hs
  · rintro ⟨e, he, hq⟩
    have hf : (t.find item less).is_end = false := by
      cases hfe : (t.find item less).is_end with
      | false => rfl
      | true =>
        have := (find_impl_null_iff h item t.root ho).1 ((find_is_end_iff less t item).1 hfe) e he
        rw [this] at hq
        exact absurd hq (by simp)
    exact ⟨t, by simp [BinarySearchTree.insert, hf]⟩

theorem insert_returned_inv {less : T → T → Bool} (t t' : BinarySearchTree T) (item : T)
    (it : Iterator T) (hr : t.insert item less = .returned t' it) :
    (t.find item less).is_end = true ∧ t' = ⟨insert_impl t.root item less⟩ ∧
      it = t'.find item less := by
  unfold BinarySearchTree.insert at hr
  split at hr
  · rename_i hf
    injection hr with h1 h2
    exact ⟨hf, h1.symm, by rw [← h2, ← h1]⟩
  · exact Outcome.noConfusion hr

/-- What a run of insertions that all return leaves behind: an ordered tree holding the
old elements and the inserted ones, the inserted ones being pairwise non-equivalent and
not equivalent to any old element. -/
theorem insert_seq_inv {less : T → T → Bool} (h : StrictWeakOrder less) (xs : List T)
    (t t' : BinarySearchTree T) (ho : Ordered less t.root)
    (hs : insert_seq less t xs = some t') :
    Ordered less t'.root ∧ (elems t'.root).Perm (xs ++ elems t.root) ∧
      xs.Pairwise (fun a b => equiv less a b = false) ∧
      ∀ x ∈ xs, ∀ e ∈ elems t.root, equiv less e x = false := by
  induction xs generalizing t with
  | nil =>
    simp only [insert_seq, Option.some.injEq] at hs
    subst hs
    simp [ho]
  | cons x xs ih =>
    simp only [insert_seq] at hs
    split at hs
    · exact Option.noConfusion hs
    · rename_i t1 it hins
      obtain ⟨hf, ht1, -⟩ := insert_returned_inv t t1 x it hins
      have hne : ∀ e ∈ elems t.root, equiv less e x = false :=
        (find_impl_null_iff h x t.root ho).1 ((find_is_end_iff less t x).1 hf)
      have ho1 : Ordered less t1.root := by
        rw [ht1]; exact ordered_insert_impl x t.root ho hne
      obtain ⟨ho', hperm, hpw, hfresh⟩ := ih t1 ho1 hs
      have hp1 : (elems t1.root).Perm (x :: elems t.root) := by
        rw [ht1]; exact elems_insert_impl_perm less x t.root
      refine ⟨ho', ?_, ?_, ?_⟩
      · refine hperm.trans ?_
        refine (hp1.append_left xs).trans ?_
        exact @List.perm_middle _ x xs (elems t.root)
      · rw [List.pairwise_cons]
        refine ⟨?_, hpw⟩
        intro y hy
        exact hfresh y hy x (hp1.mem_iff.2 (by simp))
      · intro y hy e he
        rcases List.mem_cons.1 hy with rfl | hy
        · exact hne e he
        · exact hfresh y hy e (hp1.mem_iff.2 (by simp [he]))

/-- Pairwise non-equivalent elements that are not equivalent to anything in an ordered
tree can all be inserted. -/
theorem insert_seq_succeeds {less : T → T → Bool} (h : StrictWeakOrder less) (xs : List T)
    (t : BinarySearchTree T) (ho : Ordered less t.root)
    (hpw : xs.Pairwise (fun a b => equiv less a b = false))
    (hfresh : ∀ x ∈ xs, ∀ e ∈ elems t.root, equiv less e x = false) :
    ∃ t', insert_seq less t xs = some t' := by
  induction xs generalizing t with
  | nil => exact ⟨t, rfl⟩
  | cons x xs ih =>
    rw [List.pairwise_cons] at hpw
    have hne : ∀ e ∈ elems t.root, equiv less e x = false := hfresh x (by simp)
    simp only [insert_seq, insert_eq_of_absent h t ho x hne]
    apply ih
    · exact ordered_insert_impl x t.root ho hne
    · exact hpw.2
    · intro y hy e he
      rcases (mem_elems_insert_impl less x e t.root).1 he with rfl | he
      · exact hpw.1 y hy
      · exact hfresh y (by simp [hy]) e he

theorem insert_seq_new_inv {less : T → T → Bool} (h : StrictWeakOrder less) (xs : List T)
    (t : BinarySearchTree T) (hs : insert_seq less BinarySearchTree.new xs = some t) :
    Ordered less t.root ∧ (elems t.root).Perm xs := by
  have := insert_seq_inv h xs BinarySearchTree.new t (by simp [BinarySearchTree.new, Ordered]) hs
  refine ⟨this.1, ?_⟩
  have hp := this.2.1
  simp only [BinarySearchTree.new, elems, List.append_nil] at hp
  exact hp

/-! ## Claims about insertion, size, traversal and search -/

/-- C1 (fails on the code): on a map that already holds key `1`, `Map::insert` of another
pair with key `1` does not return `(existing, false)`: `bst.insert` is called first and
its assertion `find(item) == end()` fires, so the call aborts.  Were the assertion
compiled out, `insert_impl` would add a second node for the key (size 2) and the iterator
returned by `bst.insert` would not be `end()`, so the answer would carry `true`. -/
theorem map_insert_existing_key_aborts :
    (Map.new : Map Nat Nat).insert (1, 10) natLess 0 =
        .returned ⟨⟨.mk (1, 10) .null .null⟩⟩ (⟨.mk (1, 10) .null .null, .mk (1, 10) .null .null⟩, true) ∧
      (⟨⟨.mk (1, 10) .null .null⟩⟩ : Map Nat Nat).insert (1, 20) natLess 0 =
        .aborted ⟨⟨.mk (1, 10) .null .null⟩⟩ ∧
      size_impl (insert_impl (.mk (1, 10) .null .null) ((1, 20) : Nat × Nat) (PairComp natLess)) = 2 ∧
      find_impl (insert_impl (.mk (1, 10) .null .null) ((1, 20) : Nat × Nat) (PairComp natLess))
        (1, 20) (PairComp natLess) = .mk (1, 10) .null (.mk (1, 20) .null .null) := by
  decide

/-- C2: inserting pairwise non-equivalent elements one by one into the empty tree (the
comparator being a strict weak ordering) makes every insertion return, and the final
`size()` is the number of elements inserted. -/
theorem insert_seq_size {less : T → T → Bool} (h : StrictWeakOrder less) (xs : List T)
    (hpw : xs.Pairwise (fun a b => equiv less a b = false)) :
    ∃ t, insert_seq less BinarySearchTree.new xs = some t ∧ t.size = xs.length := by
  obtain ⟨t, ht⟩ := insert_seq_succeeds h xs BinarySearchTree.new
    (by simp [BinarySearchTree.new, Ordered]) hpw (by simp [BinarySearchTree.new, elems])
  refine ⟨t, ht, ?_⟩
  rw [BinarySearchTree.size, size_impl_eq_length, (insert_seq_new_inv h xs t ht).2.length_eq]

theorem insert_seq_size_witness :
    ∃ t, insert_seq natLess BinarySearchTree.new [10, 5, 15, 3, 7] = some t ∧
      t.size = [10, 5, 15, 3, 7].length :=
  insert_seq_size natLess_swo [10, 5, 15, 3, 7] (by decide)

/-- C3: after inserting pairwise non-equivalent elements into the empty tree,
`traverse_inorder` writes exactly the inserted elements, each once, in strictly ascending
comparator order; the text is the same for every other insertion order of the same
elements. -/
theorem traverse_inorder_sorted_perm {less : T → T → Bool} (h : StrictWeakOrder less)
    (xs : List T) (hpw : xs.Pairwise (fun a b => equiv less a b = false)) :
    ∃ t ys, insert_seq less BinarySearchTree.new xs = some t ∧ ys.Perm xs ∧
      ys.Pairwise (fun a b => less a b = true) ∧
      (∀ fmt os, t.traverse_inorder fmt os = os ++ render fmt ys) ∧
      ∀ xs' t', xs'.Perm xs → insert_seq less BinarySearchTree.new xs' = some t' →
        ∀ fmt os, t'.traverse_inorder fmt os = t.traverse_inorder fmt os := by
  obtain ⟨t, ht⟩ := insert_seq_succeeds h xs BinarySearchTree.new
    (by simp [BinarySearchTree.new, Ordered]) hpw (by simp [BinarySearchTree.new, elems])
  obtain ⟨ho, hperm⟩ := insert_seq_new_inv h xs t ht
  refine ⟨t, elems t.root, ht, hperm, ordered_elems_pairwise h t.root ho, ?_, ?_⟩
  · intro fmt os
    exact traverse_inorder_impl_eq fmt t.root os
  · intro xs' t' hp' ht' fmt os
    obtain ⟨ho', hperm'⟩ := insert_seq_new_inv h xs' t' ht'
    have hanti : IsAntisymm T (fun a b => less a b = true) :=
      ⟨fun a b hab hba => absurd hba (by simp [h.asymm hab])⟩
    have heq : elems t'.root = elems t.root :=
      List.eq_of_perm_of_sorted ((hperm'.trans hp').trans hperm.symm)
        (ordered_elems_pairwise h t'.root ho') (ordered_elems_pairwise h t.root ho)
    simp only [BinarySearchTree.traverse_inorder, traverse_inorder_impl_eq, heq]

theorem traverse_inorder_sorted_perm_witness :
    ∃ t ys, insert_seq natLess BinarySearchTree.new [10, 5, 15, 3, 7] = some t ∧
      ys.Perm [10, 5, 15, 3, 7] ∧ ys.Pairwise (fun a b => natLess a b = true) ∧
      (∀ fmt os, t.traverse_inorder fmt os = os ++ render fmt ys) ∧
      ∀ xs' t', xs'.Perm [10, 5, 15, 3, 7] → insert_seq natLess BinarySearchTree.new xs' = some t' →
        ∀ fmt os, t'.traverse_inorder fmt os = t.traverse_inorder fmt os :=
  traverse_inorder_sorted_perm natLess_swo [10, 5, 15, 3, 7] (by decide)

/-- C4: on a tree built by insertions into the empty tree, `find(x)` is `end()` exactly
when no inserted element is comparator-equal to `x`; otherwise it can be dereferenced and
yields an inserted element comparator-equal to `x`. -/
theorem find_spec {less : T → T → Bool} (h : StrictWeakOrder less) (xs : List T)
    (t : BinarySearchTree T) (hb : insert_seq less BinarySearchTree.new xs = some t) (x : T) :
    ((t.find x less).is_end = true ↔ ∀ e ∈ xs, equiv less e x = false) ∧
      ((t.find x less).is_end = false →
        ∃ d, (t.find x less).deref = some d ∧ d ∈ xs ∧ equiv less d x = true) := by
  obtain ⟨ho, hperm⟩ := insert_seq_new_inv h xs t hb
  constructor
  · rw [find_is_end_iff, find_impl_null_iff h x t.root ho]
    constructor
    · intro hall e he
      exact hall e (hperm.mem_iff.2 he)
    · intro hall e he
      exact hall e (hperm.mem_iff.1 he)
  · intro hne
    simp only [BinarySearchTree.find, Iterator.is_end, empty_impl_eq_false] at hne
    cases hf : find_impl t.root x less with
    | null => exact absurd hf hne
    | mk d l r =>
      obtain ⟨hm, he⟩ := find_impl_datum less x t.root hf
      exact ⟨d, by simp [BinarySearchTree.find, Iterator.deref, hf], hperm.mem_iff.1 hm, he⟩

theorem find_spec_witness :
    (((⟨.mk 10 (.mk 5 .null .null) .null⟩ : BinarySearchTree Nat).find 5 natLess).is_end = true ↔
        ∀ e ∈ [10, 5], equiv natLess e 5 = false) ∧
      (((⟨.mk 10 (.mk 5 .null .null) .null⟩ : BinarySearchTree Nat).find 5 natLess).is_end = false →
        ∃ d, ((⟨.mk 10 (.mk 5 .null .null) .null⟩ : BinarySearchTree Nat).find 5 natLess).deref = some d ∧
          d ∈ [10, 5] ∧ equiv natLess d 5 = true) :=
  find_spec natLess_swo [10, 5] ⟨.mk 10 (.mk 5 .null .null) .null⟩ (by decide) 5

/-- C5: on a tree built by insertions, inserting an item that has no comparator-equal
element in the tree returns, and the iterator returned is positioned (not `end()`), at
the new leaf, and dereferences to the inserted item itself. -/
theorem insert_returns_new_element {less : T → T → Bool} (h : StrictWeakOrder less)
    (xs : List T) (t : BinarySearchTree T)
    (hb : insert_seq less BinarySearchTree.new xs = some t) (item : T)
    (hne : ∀ e ∈ xs, equiv less e item = false) :
    ∃ t' it, t.insert item less = .returned t' it ∧ it.is_end = false ∧
      it.deref = some item ∧ it.root = t'.root ∧ it.current_node = .mk item .null .null := by
  obtain ⟨ho, hperm⟩ := insert_seq_new_inv h xs t hb
  have hne' : ∀ e ∈ elems t.root, equiv less e item = false :=
    fun e he => hne e (hperm.mem_iff.1 he)
  exact ⟨_, _, insert_eq_of_absent h t ho item hne', rfl, rfl, rfl, rfl⟩

theorem insert_returns_new_element_witness :
    ∃ t' it, (⟨.mk 10 (.mk 5 .null .null) .null⟩ : BinarySearchTree Nat).insert 7 natLess =
        .returned t' it ∧ it.is_end = false ∧
      it.deref = some 7 ∧ it.root = t'.root ∧ it.current_node = .mk 7 .null .null :=
  insert_returns_new_element natLess_swo [10, 5] ⟨.mk 10 (.mk 5 .null .null) .null⟩ (by decide) 7
    (by decide)

/-- C6: on a tree built by insertions, `insert(item)` trips its assertion exactly when an
element comparator-equal to `item` is already in the tree, which is exactly when
`find(item) != end()`; the assertion fires before the tree is touched; and when no such
element exists the call returns. -/
theorem insert_aborts_iff_present {less : T → T → Bool} (h : StrictWeakOrder less)
    (xs : List T) (t : BinarySearchTree T)
    (hb : insert_seq less BinarySearchTree.new xs = some t) (item : T) :
    ((∃ s, t.insert item less = .aborted s) ↔ ∃ e ∈ xs, equiv less e item = true) ∧
      ((∃ s, t.insert item less = .aborted s) ↔ (t.find item less).is_end = false) ∧
      (∀ s, t.insert item less = .aborted s → s = t) ∧
      ((∀ e ∈ xs, equiv less e item = false) → ∃ t' it, t.insert item less = .returned t' it) := by
  obtain ⟨ho, hperm⟩ := insert_seq_new_inv h xs t hb
  refine ⟨?_, ?_, ?_, ?_⟩
  · rw [insert_aborted_iff h t ho item]
    constructor
    · rintro ⟨e, he, hq⟩
      exact ⟨e, hperm.mem_iff.1 he, hq⟩
    · rintro ⟨e, he, hq⟩
      exact ⟨e, hperm.mem_iff.2 he, hq⟩
  · unfold BinarySearchTree.insert
    cases hf : (t.find item less).is_end <;> simp
  · intro s hs
    unfold BinarySearchTree.insert at hs
    split at hs
    · exact Outcome.noConfusion hs
    · injection hs with h1
      exact h1.symm
  · intro hne
    exact ⟨_, _, insert_eq_of_absent h t ho item (fun e he => hne e (hperm.mem_iff.1 he))⟩

theorem insert_aborts_iff_present_witness :
    ((∃ s, (⟨.mk 10 (.mk 5 .null .null) .null⟩ : BinarySearchTree Nat).insert 5 natLess = .aborted s) ↔
        ∃ e ∈ [10, 5], equiv natLess e 5 = true) ∧
      ((∃ s, (⟨.mk 10 (.mk 5 .null .null) .null⟩ : BinarySearchTree Nat).insert 5 natLess = .aborted s) ↔
        ((⟨.mk 10 (.mk 5 .null .null) .null⟩ : BinarySearchTree Nat).find 5 natLess).is_end = false) ∧
      (∀ s, (⟨.mk 10 (.mk 5 .null .null) .null⟩ : BinarySearchTree Nat).insert 5 natLess = .aborted s →
        s = ⟨.mk 10 (.mk 5 .null .null) .null⟩) ∧
      ((∀ e ∈ [10, 5], equiv natLess e 5 = false) →
        ∃ t' it, (⟨.mk 10 (.mk 5 .null .null) .null⟩ : BinarySearchTree Nat).insert 5 natLess =
          .returned t' it) :=
  insert_aborts_iff_present natLess_swo [10, 5] ⟨.mk 10 (.mk 5 .null .null) .null⟩ (by decide) 5

/-! ## Node pointers inside a tree -/

theorem reaches_ne_null {n c : Node T} (hr : Reaches n c) : c ≠ .null := by
  induction n with
  | null => exact absurd hr (by simp [Reaches])
  | mk d l r ihl ihr =>
    rcases hr with rfl | hr | hr
    · simp
    · exact ihl hr
    · exact ihr hr

theorem reaches_trans {n c c' : Node T} (h1 : Reaches n c) (h2 : Reaches c c') :
    Reaches n c' := by
  induction n with
  | null => exact absurd h1 (by simp [Reaches])
  | mk d l r ihl ihr =>
    rcases h1 with rfl | h1 | h1
    · exact h2
    · exact Or.inr (Or.inl (ihl h1))
    · exact Or.inr (Or.inr (ihr h1))

theorem reaches_datum_mem {n : Node T} {d : T} {l r : Node T} (hr : Reaches n (.mk d l r)) :
    d ∈ elems n := by
  induction n with
  | null => exact absurd hr (by simp [Reaches])
  | mk d' l' r' ihl ihr =>
    rcases hr with heq | hr | hr
    · injection heq with h1 h2 h3
      simp [elems, h1]
    · simp [elems, ihl hr]
    · simp [elems, ihr hr]

/-! ## Leftmost and rightmost nodes -/

theorem min_element_impl_spec (n : Node T) (hn : n ≠ .null) :
    ∃ a r' ys, min_element_impl n = .mk a .null r' ∧ elems n = a :: ys ∧
      Reaches n (.mk a .null r') := by
  induction n with
  | null => exact absurd rfl hn
  | mk d l r ihl _ =>
    cases l with
    | null => exact ⟨d, r, elems r, rfl, by simp [elems], Or.inl rfl⟩
    | mk dl ll rl =>
      obtain ⟨a, r', ys, h1, h2, h3⟩ := ihl (by simp)
      refine ⟨a, r', ys ++ d :: elems r, ?_, ?_, Or.inr (Or.inl h3)⟩
      · rw [min_element_impl, h1]
      · rw [elems, h2]; simp

theorem max_element_impl_spec (n : Node T) (hn : n ≠ .null) :
    ∃ b l' ys, max_element_impl n = .mk b l' .null ∧ elems n = ys ++ [b] ∧
      Reaches n (.mk b l' .null) := by
  induction n with
  | null => exact absurd rfl hn
  | mk d l r _ ihr =>
    cases r with
    | null => exact ⟨d, l, elems l, rfl, by simp [elems], Or.inl rfl⟩
    | mk dr lr rr =>
      obtain ⟨b, l', ys, h1, h2, h3⟩ := ihr (by simp)
      refine ⟨b, l', elems l ++ d :: ys, ?_, ?_, Or.inr (Or.inr h3)⟩
      · rw [max_element_impl, h1]
      · rw [elems, h2]; simp

/-! ## The successor search -/

theorem min_greater_than_loop_spec {less : T → T → Bool} (h : StrictWeakOrder less) (val : T)
    (n : Node T) (ho : Ordered less n) (succ : Node T) :
    ((∀ x ∈ elems n, less val x = false) → min_greater_than_loop n val succ less = succ) ∧
      ((∃ x ∈ elems n, less val x = true) →
        ∃ a l r, min_greater_than_loop n val succ less = .mk a l r ∧ Reaches n (.mk a l r) ∧
          IsLeastGreater less (elems n) val a) := by
  induction n generalizing succ with
  | null =>
    refine ⟨fun _ => rfl, ?_⟩
    rintro ⟨x, hx, -⟩
    simp [elems] at hx
  | mk d l r ihl ihr =>
    obtain ⟨hl, hr, hol, hor⟩ := ho
    have hlow : ∀ x ∈ elems l, less val d = false → less val x = false := by
      intro x hx hvd
      cases hvx : less val x with
      | false => rfl
      | true => rw [h.trans val x d hvx (hl x hx)] at hvd; exact absurd hvd (by simp)
    simp only [min_greater_than_loop]
    cases hvd : less val d with
    | true =>
      simp only [if_true]
      constructor
      · intro hall
        have := hall d (by simp [elems])
        rw [hvd] at this
        exact absurd this (by simp)
      · intro _
        by_cases hex : ∃ x ∈ elems l, less val x = true
        · obtain ⟨a, l', r', h1, h2, h3, h4, h5⟩ := (ihl hol (.mk d l r)).2 hex
          refine ⟨a, l', r', h1, Or.inr (Or.inl h2), ?_, h4, ?_⟩
          · simp [elems, h3]
          · intro x hx hvx
            simp only [elems, List.mem_append, List.mem_cons] at hx
            rcases hx with hx | rfl | hx
            · exact h5 x hx hvx
            · exact h.asymm (hl a h3)
            · exact h.asymm (h.trans a d x (hl a h3) (hr x hx))
        · have hall : ∀ x ∈ elems l, less val x = false := by
            intro x hx
            cases hvx : less val x with
            | false => rfl
            | true => exact absurd ⟨x, hx, hvx⟩ hex
          refine ⟨d, l, r, (ihl hol (.mk d l r)).1 hall, Or.inl rfl, ?_, hvd, ?_⟩
          · simp [elems]
          · intro x hx hvx
            simp only [elems, List.mem_append, List.mem_cons] at hx
            rcases hx with hx | rfl | hx
            · rw [hall x hx] at hvx; exact absurd hvx (by simp)
            · exact h.irrefl x
            · exact h.asymm (hr x hx)
    | false =>
      simp only [Bool.false_eq_true, if_false]
      constructor
      · intro hall
        exact (ihr hor succ).1 (fun x hx => hall x (by simp [elems, hx]))
      · rintro ⟨x, hx, hvx⟩
        have hexr : ∃ x ∈ elems r, less val x = true := by
          simp only [elems, List.mem_append, List.mem_cons] at hx
          rcases hx with hx | rfl | hx
          · rw [hlow x hx hvd] at hvx; exact absurd hvx (by simp)
          · rw [hvd] at hvx; exact absurd hvx (by simp)
          · exact ⟨x, hx, hvx⟩
        obtain ⟨a, l', r', h1, h2, h3, h4, h5⟩ := (ihr hor succ).2 hexr
        refine ⟨a, l', r', h1, Or.inr (Or.inr h2), ?_, h4, ?_⟩
        · simp [elems, h3]
        · intro y hy hvy
          simp only [elems, List.mem_append, List.mem_cons] at hy
          rcases hy with hy | rfl | hy
          · rw [hlow y hy hvd] at hvy; exact absurd hvy (by simp)
          · rw [hvd] at hvy; exact absurd hvy (by simp)
          · exact h5 y hy hvy

theorem right_min_is_successor {less : T → T → Bool} (h : StrictWeakOrder less) (root : Node T)
    (ho : Ordered less root) (d : T) (l r : Node T) (hreach : Reaches root (.mk d l r))
    (hr : r ≠ .null) :
    ∃ a r', min_element_impl r = .mk a .null r' ∧ Reaches root (.mk a .null r') ∧
      IsLeastGreater less (elems root) d a := by
  induction root with
  | null => exact absurd hreach (by simp [Reaches])
  | mk d0 l0 r0 ihl ihr =>
    obtain ⟨hl0, hr0, hol0, hor0⟩ := ho
    rcases hreach with heq | hreach | hreach
    · injection heq with e1 e2 e3
      subst e1 e2 e3
      obtain ⟨a, r', ys, h1, h2, h3⟩ := min_element_impl_spec r hr
      have hpw := ordered_elems_pairwise h r hor0
      rw [h2, List.pairwise_cons] at hpw
      have ha : a ∈ elems r := by rw [h2]; simp
      refine ⟨a, r', h1, Or.inr (Or.inr h3), ?_, hr0 a ha, ?_⟩
      · simp [elems, ha]
      · intro x hx hdx
        simp only [elems, List.mem_append, List.mem_cons] at hx
        rcases hx with hx | rfl | hx
        · rw [h.asymm (hl0 x hx)] at hdx; exact absurd hdx (by simp)
        · rw [h.irrefl] at hdx; exact absurd hdx (by simp)
        · rw [h2] at hx
          rcases List.mem_cons.1 hx with rfl | hx
          · exact h.irrefl x
          · exact h.asymm (hpw.1 x hx)
    · obtain ⟨a, r', h1, h2, h3, h4, h5⟩ := ihl hol0 hreach
      refine ⟨a, r', h1, Or.inr (Or.inl h2), ?_, h4, ?_⟩
      · simp [elems, h3]
      · intro x hx hdx
        simp only [elems, List.mem_append, List.mem_cons] at hx
        rcases hx with hx | rfl | hx
        · exact h5 x hx hdx
        · exact h.asymm (hl0 a h3)
        · exact h.asymm (h.trans a d0 x (hl0 a h3) (hr0 x hx))
    · obtain ⟨a, r', h1, h2, h3, h4, h5⟩ := ihr hor0 hreach
      have hd : less d0 d = true := hr0 d (reaches_datum_mem hreach)
      refine ⟨a, r', h1, Or.inr (Or.inr h2), ?_, h4, ?_⟩
      · simp [elems, h3]
      · intro x hx hdx
        simp only [elems, List.mem_append, List.mem_cons] at hx
        rcases hx with hx | rfl | hx
        · rw [h.asymm (h.trans x d0 d (hl0 x hx) hd)] at hdx; exact absurd hdx (by simp)
        · rw [h.asymm hd] at hdx; exact absurd hdx (by simp)
        · exact h5 x hx hdx

/-- What `operator++` does to an iterator positioned at a node of an ordered tree. -/
theorem incr_spec {less : T → T → Bool} (h : StrictWeakOrder less) (root : Node T)
    (ho : Ordered less root) (it : Iterator T) (hroot : it.root = root)
    (hpos : Reaches root it.current_node) :
    ∃ e it', it.deref = some e ∧ e ∈ elems root ∧ it.incr less = some it' ∧ it'.root = root ∧
      ((∀ x ∈ elems root, less e x = false) → it'.current_node = .null) ∧
      ((∃ x ∈ elems root, less e x = true) →
        ∃ a, it'.deref = some a ∧ Reaches root it'.current_node ∧
          IsLeastGreater less (elems root) e a) := by
  cases hc : it.current_node with
  | null => exact absurd hc (reaches_ne_null hpos)
  | mk d l r =>
    rw [hc] at hpos
    cases r with
    | null =>
      have hs := min_greater_than_loop_spec h d root ho .null
      refine ⟨d, ⟨root, min_greater_than_impl root d less⟩, by simp [Iterator.deref, hc],
        reaches_datum_mem hpos, by simp [Iterator.incr, hc, empty_impl, hroot], rfl, ?_, ?_⟩
      · intro hall
        exact hs.1 hall
      · intro hex
        obtain ⟨a, l', r', h1, h2, h3⟩ := hs.2 hex
        have h1' : min_greater_than_impl root d less = .mk a l' r' := h1
        exact ⟨a, by simp [Iterator.deref, h1'], by simpa [h1'] using h2, h3⟩
    | mk dr lr rr =>
      obtain ⟨a, r', h1, h2, h3⟩ :=
        right_min_is_successor h root ho d l (.mk dr lr rr) hpos (by simp)
      refine ⟨d, ⟨root, min_element_impl (.mk dr lr rr)⟩, by simp [Iterator.deref, hc],
        reaches_datum_mem hpos, by simp [Iterator.incr, hc, empty_impl, hroot], rfl, ?_, ?_⟩
      · intro hall
        have := hall a h3.1
        rw [h3.2.1] at this
        exact absurd this (by simp)
      · intro _
        exact ⟨a, by simp [Iterator.deref, h1], by simpa [h1] using h2, h3⟩

/-! ## Walking a tree with the iterator -/

theorem least_greater_in_sorted {less : T → T → Bool} (h : StrictWeakOrder less)
    (pre post : List T) (v w a : T)
    (hs : (pre ++ v :: w :: post).Pairwise (fun a b => less a b = true))
    (hlg : IsLeastGreater less (pre ++ v :: w :: post) v a) : a = w := by
  obtain ⟨hmem, hva, hmin⟩ := hlg
  rw [List.pairwise_append] at hs
  obtain ⟨-, hs2, hs3⟩ := hs
  rw [List.pairwise_cons] at hs2
  obtain ⟨hv, hs2⟩ := hs2
  rw [List.pairwise_cons] at hs2
  simp only [List.mem_append, List.mem_cons] at hmem
  rcases hmem with hm | rfl | rfl | hm
  · rw [h.asymm (hs3 a hm v (by simp))] at hva; exact absurd hva (by simp)
  · rw [h.irrefl] at hva; exact absurd hva (by simp)
  · rfl
  · have h1 := hmin w (by simp) (hv w (by simp))
    rw [hs2.1 a hm] at h1
    exact absurd h1 (by simp)

theorem no_greater_after_last {less : T → T → Bool} (h : StrictWeakOrder less)
    (pre : List T) (v : T) (hs : (pre ++ [v]).Pairwise (fun a b => less a b = true)) :
    ∀ x ∈ pre ++ [v], less v x = false := by
  intro x hx
  rw [List.pairwise_append] at hs
  simp only [List.mem_append, List.mem_singleton] at hx
  rcases hx with hx | rfl
  · exact h.asymm (hs.2.2 x hx v (by simp))
  · exact h.irrefl x

theorem iterate_of_is_end (less : T → T → Bool) (fuel : Nat) (it : Iterator T)
    (he : it.is_end = true) : iterate less fuel it = some ([], 0) := by
  cases fuel <;> simp [iterate, he]

theorem iterate_spec {less : T → T → Bool} (h : StrictWeakOrder less) (root : Node T)
    (ho : Ordered less root) (post : List T) :
    ∀ (pre : List T) (v : T) (it : Iterator T), elems root = pre ++ v :: post →
      it.root = root → Reaches root it.current_node → it.deref = some v →
      ∀ fuel, post.length + 1 ≤ fuel →
        iterate less fuel it = some (v :: post, post.length + 1) := by
  induction post with
  | nil =>
    intro pre v it hel hroot hpos hd fuel hfuel
    obtain ⟨e, it', h1, -, h3, -, h5, -⟩ := incr_spec h root ho it hroot hpos
    rw [hd] at h1
    injection h1 with h1
    subst h1
    have hpw := ordered_elems_pairwise h root ho
    rw [hel] at hpw
    have hnull := h5 (by rw [hel]; exact no_greater_after_last h pre v hpw)
    have hend : it'.is_end = true := by simp [Iterator.is_end, hnull, empty_impl]
    have hne : it.is_end = false := by
      simp [Iterator.is_end, empty_impl_eq_false, reaches_ne_null hpos]
    obtain ⟨f, rfl⟩ : ∃ f, fuel = f + 1 := ⟨fuel - 1, by omega⟩
    simp [iterate, hne, hd, h3, iterate_of_is_end less f it' hend]
  | cons w post ih =>
    intro pre v it hel hroot hpos hd fuel hfuel
    obtain ⟨e, it', h1, -, h3, h4, -, h6⟩ := incr_spec h root ho it hroot hpos
    rw [hd] at h1
    injection h1 with h1
    subst h1
    have hpw := ordered_elems_pairwise h root ho
    rw [hel] at hpw
    have hvw : less v w = true := by
      rw [List.pairwise_append] at hpw
      exact (List.pairwise_cons.1 hpw.2.1).1 w (by simp)
    obtain ⟨a, ha1, ha2, ha3⟩ := h6 ⟨w, by rw [hel]; simp, hvw⟩
    rw [hel] at ha3
    have haw : a = w := least_greater_in_sorted h pre post v w a hpw ha3
    subst haw
    have hne : it.is_end = false := by
      simp [Iterator.is_end, empty_impl_eq_false, reaches_ne_null hpos]
    obtain ⟨f, rfl⟩ : ∃ f, fuel = f + 1 := ⟨fuel - 1, by omega⟩
    have hrec := ih (pre ++ [v]) a it' (by rw [hel]; simp) h4 ha2 ha1 f
      (by simp only [List.length_cons] at hfuel; omega)
    simp [iterate, hne, hd, h3, hrec]

theorem iterate_short {less : T → T → Bool} (h : StrictWeakOrder less) (root : Node T)
    (ho : Ordered less root) (post : List T) :
    ∀ (pre : List T) (v : T) (it : Iterator T), elems root = pre ++ v :: post →
      it.root = root → Reaches root it.current_node → it.deref = some v →
      ∀ fuel, fuel ≤ post.length → iterate less fuel it = none := by
  induction post with
  | nil =>
    intro pre v it _ _ hpos _ fuel hfuel
    have hne : it.is_end = false := by
      simp [Iterator.is_end, empty_impl_eq_false, reaches_ne_null hpos]
    have hf : fuel = 0 := by simpa using hfuel
    subst hf
    simp [iterate, hne]
  | cons w post ih =>
    intro pre v it hel hroot hpos hd fuel hfuel
    have hne : it.is_end = false := by
      simp [Iterator.is_end, empty_impl_eq_false, reaches_ne_null hpos]
    cases fuel with
    | zero => simp [iterate, hne]
    | succ f =>
      obtain ⟨e, it', h1, -, h3, h4, -, h6⟩ := incr_spec h root ho it hroot hpos
      rw [hd] at h1
      injection h1 with h1
      subst h1
      have hpw := ordered_elems_pairwise h root ho
      rw [hel] at hpw
      have hvw : less v w = true := by
        rw [List.pairwise_append] at hpw
        exact (List.pairwise_cons.1 hpw.2.1).1 w (by simp)
      obtain ⟨a, ha1, ha2, ha3⟩ := h6 ⟨w, by rw [hel]; simp, hvw⟩
      rw [hel] at ha3
      have haw : a = w := least_greater_in_sorted h pre post v w a hpw ha3
      subst haw
      have hrec := ih (pre ++ [v]) a it' (by rw [hel]; simp) h4 ha2 ha1 f
        (by simp only [List.length_cons] at hfuel; omega)
      simp [iterate, hne, hd, h3, hrec]

/-! ## Claims about iterators, successors and extremes -/

/-- C7: on a tree built by insertions, the loop that starts at `begin()` and applies `++`
until the iterator equals `end()` ends after exactly `size()` advances (it is not over
within fewer rounds), never dereferences or advances a past-the-end iterator, and collects
the very sequence whose text `traverse_inorder` writes; on the empty tree `begin()` is
`end()` and nothing is visited. -/
theorem iterator_walk_eq_inorder {less : T → T → Bool} (h : StrictWeakOrder less)
    (xs : List T) (t : BinarySearchTree T)
    (hb : insert_seq less BinarySearchTree.new xs = some t) :
    ∃ vals, iterate less t.size t.begin = some (vals, t.size) ∧
      (∀ fuel, t.size ≤ fuel → iterate less fuel t.begin = some (vals, t.size)) ∧
      (∀ fuel, fuel < t.size → iterate less fuel t.begin = none) ∧
      (∀ fmt os, t.traverse_inorder fmt os = os ++ render fmt vals) ∧
      (t.empty = true → t.begin.is_end = true ∧ vals = []) := by
  obtain ⟨ho, -⟩ := insert_seq_new_inv h xs t hb
  have short : ∀ fuel, fuel < t.size → iterate less fuel t.begin = none := by
    intro fuel hfuel
    cases hroot : t.root with
    | null => simp [BinarySearchTree.size, hroot, size_impl] at hfuel
    | mk d l r =>
      obtain ⟨a, r', ys, h1, h2, h3⟩ := min_element_impl_spec t.root (by simp [hroot])
      have hsize : t.size = ys.length + 1 := by
        rw [BinarySearchTree.size, size_impl_eq_length, h2]; simp
      have hbegin : t.begin = ⟨t.root, min_element_impl t.root⟩ := by
        simp [BinarySearchTree.begin, hroot, empty_impl]
      rw [hbegin]
      exact iterate_short h t.root ho ys [] a ⟨t.root, min_element_impl t.root⟩
        (by simpa using h2) rfl (by simpa [h1] using h3) (by simp [Iterator.deref, h1]) fuel
        (by omega)
  have key : ∀ fuel, t.size ≤ fuel → iterate less fuel t.begin = some (elems t.root, t.size) := by
    intro fuel hfuel
    cases hroot : t.root with
    | null =>
      simp [BinarySearchTree.begin, BinarySearchTree.size, hroot, empty_impl, size_impl, elems,
        iterate_of_is_end less fuel Iterator.default rfl]
    | mk d l r =>
      obtain ⟨a, r', ys, h1, h2, h3⟩ := min_element_impl_spec t.root (by simp [hroot])
      have hsize : t.size = ys.length + 1 := by
        rw [BinarySearchTree.size, size_impl_eq_length, h2]; simp
      have hbegin : t.begin = ⟨t.root, min_element_impl t.root⟩ := by
        simp [BinarySearchTree.begin, hroot, empty_impl]
      have := iterate_spec h t.root ho ys [] a ⟨t.root, min_element_impl t.root⟩
        (by simpa using h2) rfl (by simpa [h1] using h3) (by simp [Iterator.deref, h1]) fuel
        (by omega)
      rw [hbegin, this, hsize, ← hroot, h2]
  refine ⟨elems t.root, key t.size (Nat.le_refl _), key, short, ?_, ?_⟩
  · intro fmt os
    exact traverse_inorder_impl_eq fmt t.root os
  · intro he
    have hnull : t.root = .null := empty_impl_eq_true.1 he
    simp [BinarySearchTree.begin, Iterator.is_end, Iterator.default, hnull, empty_impl, elems]

theorem iterator_walk_eq_inorder_witness :
    ∃ vals, iterate natLess
        (⟨.mk 10 (.mk 5 .null .null) (.mk 15 .null .null)⟩ : BinarySearchTree Nat).size
        (⟨.mk 10 (.mk 5 .null .null) (.mk 15 .null .null)⟩ : BinarySearchTree Nat).begin =
          some (vals, (⟨.mk 10 (.mk 5 .null .null) (.mk 15 .null .null)⟩ : BinarySearchTree Nat).size) ∧
      (∀ fuel, (⟨.mk 10 (.mk 5 .null .null) (.mk 15 .null .null)⟩ : BinarySearchTree Nat).size ≤ fuel →
        iterate natLess fuel
          (⟨.mk 10 (.mk 5 .null .null) (.mk 15 .null .null)⟩ : BinarySearchTree Nat).begin =
          some (vals, (⟨.mk 10 (.mk 5 .null .null) (.mk 15 .null .null)⟩ : BinarySearchTree Nat).size)) ∧
      (∀ fuel, fuel < (⟨.mk 10 (.mk 5 .null .null) (.mk 15 .null .null)⟩ : BinarySearchTree Nat).size →
        iterate natLess fuel
          (⟨.mk 10 (.mk 5 .null .null) (.mk 15 .null .null)⟩ : BinarySearchTree Nat).begin = none) ∧
      (∀ fmt os, (⟨.mk 10 (.mk 5 .null .null) (.mk 15 .null .null)⟩ : BinarySearchTree Nat).traverse_inorder
        fmt os = os ++ render fmt vals) ∧
      ((⟨.mk 10 (.mk 5 .null .null) (.mk 15 .null .null)⟩ : BinarySearchTree Nat).empty = true →
        (⟨.mk 10 (.mk 5 .null .null) (.mk 15 .null .null)⟩ : BinarySearchTree Nat).begin.is_end = true ∧
          vals = []) :=
  iterator_walk_eq_inorder natLess_swo [10, 5, 15]
    ⟨.mk 10 (.mk 5 .null .null) (.mk 15 .null .null)⟩ (by decide)

/-- C8: on a tree built by insertions, `++` on an iterator positioned at a node with
element `e` leaves it at the smallest element strictly greater than `e`, in both branches
(leftmost node of the right subtree when there is a right child, the descent from the
root otherwise), and makes it past-the-end exactly when no element is greater than `e`. -/
theorem incr_yields_successor {less : T → T → Bool} (h : StrictWeakOrder less)
    (xs : List T) (t : BinarySearchTree T)
    (hb : insert_seq less BinarySearchTree.new xs = some t)
    (it : Iterator T) (hroot : it.root = t.root) (hpos : Reaches t.root it.current_node) :
    ∃ e it', it.deref = some e ∧ e ∈ xs ∧ it.incr less = some it' ∧ it'.root = t.root ∧
      (it'.is_end = true ↔ ∀ x ∈ xs, less e x = false) ∧
      (it'.is_end = false →
        Reaches t.root it'.current_node ∧
          ∃ a, it'.deref = some a ∧ a ∈ xs ∧ less e a = true ∧
            ∀ x ∈ xs, less e x = true → less x a = false) ∧
      (∀ d l r, it.current_node = .mk d l r → r ≠ .null →
        it'.current_node = min_element_impl r) ∧
      (∀ d l, it.current_node = .mk d l .null →
        it'.current_node = min_greater_than_impl it.root d less) := by
  obtain ⟨ho, hperm⟩ := insert_seq_new_inv h xs t hb
  obtain ⟨e, it', h1, h2, h3, h4, h5, h6⟩ := incr_spec h t.root ho it hroot hpos
  have hcases : (∀ x ∈ elems t.root, less e x = false) ∨ ∃ x ∈ elems t.root, less e x = true := by
    by_cases hex : ∃ x ∈ elems t.root, less e x = true
    · exact Or.inr hex
    · left
      intro x hx
      cases hlt : less e x with
      | false => rfl
      | true => exact absurd ⟨x, hx, hlt⟩ hex
  refine ⟨e, it', h1, hperm.mem_iff.1 h2, h3, h4, ?_, ?_, ?_, ?_⟩
  · constructor
    · intro hend x hx
      rcases hcases with hall | hex
      · exact hall x (hperm.mem_iff.2 hx)
      · obtain ⟨a, ha, -, -⟩ := h6 hex
        simp only [Iterator.is_end, empty_impl_eq_true] at hend
        simp [Iterator.deref, hend] at ha
    · intro hall
      have := h5 (fun x hx => hall x (hperm.mem_iff.1 hx))
      simp [Iterator.is_end, this, empty_impl]
  · intro hne
    rcases hcases with hall | hex
    · have := h5 hall
      simp [Iterator.is_end, this, empty_impl] at hne
    · obtain ⟨a, ha, hreach, hmem, hlt, hmin⟩ := h6 hex
      exact ⟨hreach, a, ha, hperm.mem_iff.1 hmem, hlt,
        fun x hx hex' => hmin x (hperm.mem_iff.2 hx) hex'⟩
  · intro d l r hc hr
    have her : empty_impl r = false := empty_impl_eq_false.2 hr
    simp only [Iterator.incr, hc, her, Bool.not_false, if_true, Option.some.injEq] at h3
    rw [← h3]
  · intro d l hc
    simp only [Iterator.incr, hc, empty_impl, Bool.not_true, Bool.false_eq_true, if_false,
      Option.some.injEq] at h3
    rw [← h3]

theorem incr_yields_successor_witness :
    ∃ e it', (⟨.mk 10 (.mk 5 .null .null) (.mk 15 .null .null), .mk 5 .null .null⟩ :
          Iterator Nat).deref = some e ∧ e ∈ [10, 5, 15] ∧
      (⟨.mk 10 (.mk 5 .null .null) (.mk 15 .null .null), .mk 5 .null .null⟩ :
          Iterator Nat).incr natLess = some it' ∧
      it'.root = (⟨.mk 10 (.mk 5 .null .null) (.mk 15 .null .null)⟩ : BinarySearchTree Nat).root ∧
      (it'.is_end = true ↔ ∀ x ∈ [10, 5, 15], natLess e x = false) ∧
      (it'.is_end = false →
        Reaches (⟨.mk 10 (.mk 5 .null .null) (.mk 15 .null .null)⟩ : BinarySearchTree Nat).root
            it'.current_node ∧
          ∃ a, it'.deref = some a ∧ a ∈ [10, 5, 15] ∧ natLess e a = true ∧
            ∀ x ∈ [10, 5, 15], natLess e x = true → natLess x a = false) ∧
      (∀ d l r, (⟨.mk 10 (.mk 5 .null .null) (.mk 15 .null .null), .mk 5 .null .null⟩ :
          Iterator Nat).current_node = .mk d l r → r ≠ .null →
        it'.current_node = min_element_impl r) ∧
      (∀ d l, (⟨.mk 10 (.mk 5 .null .null) (.mk 15 .null .null), .mk 5 .null .null⟩ :
          Iterator Nat).current_node = .mk d l .null →
        it'.current_node = min_greater_than_impl
          (⟨.mk 10 (.mk 5 .null .null) (.mk 15 .null .null), .mk 5 .null .null⟩ :
            Iterator Nat).root d natLess) :=
  incr_yields_successor natLess_swo [10, 5, 15]
    ⟨.mk 10 (.mk 5 .null .null) (.mk 15 .null .null)⟩ (by decide)
    ⟨.mk 10 (.mk 5 .null .null) (.mk 15 .null .null), .mk 5 .null .null⟩ rfl
    (Or.inr (Or.inl (Or.inl rfl)))

/-- C9: on a tree built by insertions and for every value `v`, in the tree or not,
`min_greater_than(v)` is positioned at the smallest element strictly greater than `v`,
and it is `end()` exactly when no element is strictly greater than `v`; in particular it
is `end()` on the empty tree. -/
theorem min_greater_than_spec {less : T → T → Bool} (h : StrictWeakOrder less)
    (xs : List T) (t : BinarySearchTree T)
    (hb : insert_seq less BinarySearchTree.new xs = some t) (v : T) :
    ((t.min_greater_than v less).is_end = true ↔ ∀ x ∈ xs, less v x = false) ∧
      ((t.min_greater_than v less).is_end = false →
        Reaches t.root (t.min_greater_than v less).current_node ∧
          ∃ a, (t.min_greater_than v less).deref = some a ∧ a ∈ xs ∧ less v a = true ∧
            ∀ x ∈ xs, less v x = true → less x a = false) ∧
      ((BinarySearchTree.new : BinarySearchTree T).min_greater_than v less).is_end = true := by
  obtain ⟨ho, hperm⟩ := insert_seq_new_inv h xs t hb
  have hs := min_greater_than_loop_spec h v t.root ho .null
  have hcases : (∀ x ∈ elems t.root, less v x = false) ∨ ∃ x ∈ elems t.root, less v x = true := by
    by_cases hex : ∃ x ∈ elems t.root, less v x = true
    · exact Or.inr hex
    · left
      intro x hx
      cases hlt : less v x with
      | false => rfl
      | true => exact absurd ⟨x, hx, hlt⟩ hex
  have hnone : (∀ x ∈ elems t.root, less v x = false) →
      (t.min_greater_than v less).is_end = true := by
    intro hall
    have := hs.1 hall
    simp [BinarySearchTree.min_greater_than, min_greater_than_impl, Iterator.is_end, this,
      empty_impl]
  have hsome : (∃ x ∈ elems t.root, less v x = true) →
      (t.min_greater_than v less).is_end = false ∧
        Reaches t.root (t.min_greater_than v less).current_node ∧
          ∃ a, (t.min_greater_than v less).deref = some a ∧ a ∈ xs ∧ less v a = true ∧
            ∀ x ∈ xs, less v x = true → less x a = false := by
    intro hex
    obtain ⟨a, l, r, h1, h2, hmem, hlt, hmin⟩ := hs.2 hex
    refine ⟨?_, ?_, a, ?_, hperm.mem_iff.1 hmem, hlt, fun x hx => hmin x (hperm.mem_iff.2 hx)⟩
    · simp [BinarySearchTree.min_greater_than, min_greater_than_impl, Iterator.is_end, h1,
        empty_impl]
    · simpa [BinarySearchTree.min_greater_than, min_greater_than_impl, h1] using h2
    · simp [BinarySearchTree.min_greater_than, min_greater_than_impl, Iterator.deref, h1]
  refine ⟨⟨?_, ?_⟩, ?_, rfl⟩
  · intro hend x hx
    rcases hcases with hall | hex
    · exact hall x (hperm.mem_iff.2 hx)
    · rw [(hsome hex).1] at hend
      exact absurd hend (by simp)
  · intro hall
    exact hnone (fun x hx => hall x (hperm.mem_iff.1 hx))
  · intro hne
    rcases hcases with hall | hex
    · rw [hnone hall] at hne
      exact absurd hne (by simp)
    · exact (hsome hex).2

theorem min_greater_than_spec_witness :
    (((⟨.mk 10 (.mk 5 .null .null) (.mk 15 .null .null)⟩ : BinarySearchTree Nat).min_greater_than
          7 natLess).is_end = true ↔ ∀ x ∈ [10, 5, 15], natLess 7 x = false) ∧
      (((⟨.mk 10 (.mk 5 .null .null) (.mk 15 .null .null)⟩ : BinarySearchTree Nat).min_greater_than
          7 natLess).is_end = false →
        Reaches (⟨.mk 10 (.mk 5 .null .null) (.mk 15 .null .null)⟩ : BinarySearchTree Nat).root
            ((⟨.mk 10 (.mk 5 .null .null) (.mk 15 .null .null)⟩ :
              BinarySearchTree Nat).min_greater_than 7 natLess).current_node ∧
          ∃ a, ((⟨.mk 10 (.mk 5 .null .null) (.mk 15 .null .null)⟩ :
              BinarySearchTree Nat).min_greater_than 7 natLess).deref = some a ∧
            a ∈ [10, 5, 15] ∧ natLess 7 a = true ∧
            ∀ x ∈ [10, 5, 15], natLess 7 x = true → natLess x a = false) ∧
      ((BinarySearchTree.new : BinarySearchTree Nat).min_greater_than 7 natLess).is_end = true :=
  min_greater_than_spec natLess_swo [10, 5, 15]
    ⟨.mk 10 (.mk 5 .null .null) (.mk 15 .null .null)⟩ (by decide) 7

/-- C10: `min_element()` and `max_element()` equal `end()` on the empty tree; on every
non-empty tree, whatever its shape, they are positioned at the first and at the last
element that `traverse_inorder` writes; hence on a tree built by insertions they are at
the least and at the greatest inserted element. -/
theorem min_max_element_spec (t : BinarySearchTree T) :
    (t.empty = true → t.min_element.is_end = true ∧ t.max_element.is_end = true) ∧
      (t.empty = false →
        ∃ a b ys zs, t.min_element.deref = some a ∧ t.max_element.deref = some b ∧
          (∀ fmt os, t.traverse_inorder fmt os = os ++ render fmt (a :: ys)) ∧
          (∀ fmt os, t.traverse_inorder fmt os = os ++ render fmt (zs ++ [b]))) ∧
      (∀ (less : T → T → Bool) (xs : List T), StrictWeakOrder less →
        insert_seq less BinarySearchTree.new xs = some t → t.empty = false →
        ∃ a b, t.min_element.deref = some a ∧ t.max_element.deref = some b ∧
          a ∈ xs ∧ b ∈ xs ∧ ∀ x ∈ xs, less x a = false ∧ less b x = false) := by
  have hpos : t.empty = false →
      ∃ a b ys zs, t.min_element.deref = some a ∧ t.max_element.deref = some b ∧
        elems t.root = a :: ys ∧ elems t.root = zs ++ [b] := by
    intro he
    have hne : t.root ≠ .null := empty_impl_eq_false.1 he
    obtain ⟨a, r', ys, h1, h2, -⟩ := min_element_impl_spec t.root hne
    obtain ⟨b, l', zs, h3, h4, -⟩ := max_element_impl_spec t.root hne
    exact ⟨a, b, ys, zs, by simp [BinarySearchTree.min_element, Iterator.deref, h1],
      by simp [BinarySearchTree.max_element, Iterator.deref, h3], h2, h4⟩
  refine ⟨?_, ?_, ?_⟩
  · intro he
    have hnull : t.root = .null := empty_impl_eq_true.1 he
    simp [BinarySearchTree.min_element, BinarySearchTree.max_element, Iterator.is_end,
      hnull, min_element_impl, max_element_impl, empty_impl]
  · intro he
    obtain ⟨a, b, ys, zs, h1, h2, h3, h4⟩ := hpos he
    refine ⟨a, b, ys, zs, h1, h2, ?_, ?_⟩
    · intro fmt os
      rw [BinarySearchTree.traverse_inorder, traverse_inorder_impl_eq, h3]
    · intro fmt os
      rw [BinarySearchTree.traverse_inorder, traverse_inorder_impl_eq, h4]
  · intro less xs h hb he
    obtain ⟨ho, hperm⟩ := insert_seq_new_inv h xs t hb
    obtain ⟨a, b, ys, zs, h1, h2, h3, h4⟩ := hpos he
    have hpw := ordered_elems_pairwise h t.root ho
    have hpa := hpw
    rw [h3, List.pairwise_cons] at hpa
    have hpb := hpw
    rw [h4, List.pairwise_append] at hpb
    refine ⟨a, b, h1, h2, hperm.mem_iff.1 (by rw [h3]; simp),
      hperm.mem_iff.1 (by rw [h4]; simp), ?_⟩
    intro x hx
    have hx' := hperm.mem_iff.2 hx
    constructor
    · rw [h3] at hx'
      rcases List.mem_cons.1 hx' with rfl | hx'
      · exact h.irrefl x
      · exact h.asymm (hpa.1 x hx')
    · rw [h4] at hx'
      rcases List.mem_append.1 hx' with hx' | hx'
      · exact h.asymm (hpb.2.2 x hx' b (by simp))
      · rw [List.mem_singleton.1 hx']
        exact h.irrefl b

theorem min_max_element_spec_witness :
    ((BinarySearchTree.new : BinarySearchTree Nat).min_element.is_end = true ∧
      (BinarySearchTree.new : BinarySearchTree Nat).max_element.is_end = true) ∧
    (∃ a b ys zs,
      (⟨.mk 10 (.mk 5 .null .null) (.mk 15 .null .null)⟩ : BinarySearchTree Nat).min_element.deref =
        some a ∧
      (⟨.mk 10 (.mk 5 .null .null) (.mk 15 .null .null)⟩ : BinarySearchTree Nat).max_element.deref =
        some b ∧
      (∀ fmt os, (⟨.mk 10 (.mk 5 .null .null) (.mk 15 .null .null)⟩ :
        BinarySearchTree Nat).traverse_inorder fmt os = os ++ render fmt (a :: ys)) ∧
      (∀ fmt os, (⟨.mk 10 (.mk 5 .null .null) (.mk 15 .null .null)⟩ :
        BinarySearchTree Nat).traverse_inorder fmt os = os ++ render fmt (zs ++ [b]))) ∧
    (∃ a b,
      (⟨.mk 10 (.mk 5 .null .null) (.mk 15 .null .null)⟩ : BinarySearchTree Nat).min_element.deref =
        some a ∧
      (⟨.mk 10 (.mk 5 .null .null) (.mk 15 .null .null)⟩ : BinarySearchTree Nat).max_element.deref =
        some b ∧
      a ∈ [10, 5, 15] ∧ b ∈ [10, 5, 15] ∧
      ∀ x ∈ [10, 5, 15], natLess x a = false ∧ natLess b x = false) :=
  ⟨(min_max_element_spec BinarySearchTree.new).1 (by decide),
    (min_max_element_spec ⟨.mk 10 (.mk 5 .null .null) (.mk 15 .null .null)⟩).2.1 (by decide),
    (min_max_element_spec ⟨.mk 10 (.mk 5 .null .null) (.mk 15 .null .null)⟩).2.2 natLess
      [10, 5, 15] natLess_swo (by decide) (by decide)⟩

/-! ## Claims about the sorting check, copies, height and emptiness -/

theorem check_sorting_invariant_impl_of_ordered {less : T → T → Bool}
    (h : StrictWeakOrder less) (n : Node T) (ho : Ordered less n) :
    check_sorting_invariant_impl n less = true := by
  induction n with
  | null => rfl
  | mk d l r ihl ihr =>
    obtain ⟨hl, hr, hol, hor⟩ := ho
    have el := ihl hol
    have er := ihr hor
    unfold check_sorting_invariant_impl
    rw [el, er]
    cases l with
    | null =>
      cases r with
      | null => rfl
      | mk dr lr rr =>
        simp [h.asymm (hr dr (by simp [elems]))]
    | mk dl ll rl =>
      cases r with
      | null =>
        simp [h.asymm (hl dl (by simp [elems]))]
      | mk dr lr rr =>
        simp [h.asymm (hl dl (by simp [elems])), h.asymm (hr dr (by simp [elems]))]

/-- C11: `check_sorting_invariant()` is true on the empty tree and on every tree reached
from it by insertions that return (each item having no comparator-equal element in the
tree at the time); it is never false there. -/
theorem check_sorting_invariant_of_insertions {less : T → T → Bool}
    (h : StrictWeakOrder less) (xs : List T) (t : BinarySearchTree T)
    (hb : insert_seq less BinarySearchTree.new xs = some t) :
    (BinarySearchTree.new : BinarySearchTree T).check_sorting_invariant less = true ∧
      t.check_sorting_invariant less = true ∧ t.check_sorting_invariant less ≠ false := by
  have ht := check_sorting_invariant_impl_of_ordered h t.root (insert_seq_new_inv h xs t hb).1
  refine ⟨rfl, ht, ?_⟩
  rw [BinarySearchTree.check_sorting_invariant, ht]
  simp

theorem check_sorting_invariant_of_insertions_witness :
    (BinarySearchTree.new : BinarySearchTree Nat).check_sorting_invariant natLess = true ∧
      (⟨.mk 10 (.mk 5 (.mk 3 .null .null) (.mk 7 .null .null)) (.mk 15 .null .null)⟩ :
        BinarySearchTree Nat).check_sorting_invariant natLess = true ∧
      (⟨.mk 10 (.mk 5 (.mk 3 .null .null) (.mk 7 .null .null)) (.mk 15 .null .null)⟩ :
        BinarySearchTree Nat).check_sorting_invariant natLess ≠ false :=
  check_sorting_invariant_of_insertions natLess_swo [10, 5, 15, 3, 7]
    ⟨.mk 10 (.mk 5 (.mk 3 .null .null) (.mk 7 .null .null)) (.mk 15 .null .null)⟩ (by decide)

theorem copy_nodes_impl_eq (n : Node T) : copy_nodes_impl n = n := by
  induction n with
  | null => rfl
  | mk d l r ihl ihr => simp [copy_nodes_impl, ihl, ihr]

/-- C12: the copy-constructed tree, and the target of an assignment from `s` (whatever the
target held before), have the size, the in-order text, the shape, the height and the
pre-order text of `s`; the previous contents of the target play no part in the result;
`s` is left as it was; and a self-assignment changes nothing. -/
theorem copy_fidelity (s t : BinarySearchTree T) :
    (s.copy.size = s.size ∧ s.copy.height = s.height ∧ s.copy.root = s.root ∧
        (∀ fmt os, s.copy.traverse_inorder fmt os = s.traverse_inorder fmt os) ∧
        ∀ fmt os, s.copy.traverse_preorder fmt os = s.traverse_preorder fmt os) ∧
      ((t.assign s false).1.size = s.size ∧ (t.assign s false).1.height = s.height ∧
        (t.assign s false).1.root = s.root ∧
        (∀ fmt os, (t.assign s false).1.traverse_inorder fmt os = s.traverse_inorder fmt os) ∧
        ∀ fmt os, (t.assign s false).1.traverse_preorder fmt os = s.traverse_preorder fmt os) ∧
      (∀ t' : BinarySearchTree T, (t'.assign s false).1 = (t.assign s false).1) ∧
      (t.assign s false).2 = s ∧
      s.assign s true = (s, s) := by
  have hc : s.copy = s := by
    cases s
    simp [BinarySearchTree.copy, copy_nodes_impl_eq]
  have ha : ∀ u : BinarySearchTree T, u.assign s false = (s, s) := by
    intro u
    cases s
    simp [BinarySearchTree.assign, copy_nodes_impl_eq]
  refine ⟨?_, ?_, ?_, ?_, ?_⟩
  · rw [hc]
    exact ⟨rfl, rfl, rfl, fun _ _ => rfl, fun _ _ => rfl⟩
  · rw [ha t]
    exact ⟨rfl, rfl, rfl, fun _ _ => rfl, fun _ _ => rfl⟩
  · intro t'
    rw [ha t, ha t']
  · rw [ha t]
  · simp [BinarySearchTree.assign]

theorem root_to_leaf_paths_le_height (n : Node T) :
    ∀ p ∈ root_to_leaf_paths n, p.length ≤ height_impl n := by
  induction n with
  | null => simp [root_to_leaf_paths]
  | mk d l r ihl ihr =>
    intro p hp
    simp only [root_to_leaf_paths] at hp
    split at hp
    · simp only [List.mem_singleton] at hp
      subst hp
      simp [height_impl]
    · simp only [List.mem_map, List.mem_append] at hp
      obtain ⟨q, hq, rfl⟩ := hp
      simp only [List.length_cons, height_impl]
      rcases hq with hq | hq
      · have := ihl q hq
        omega
      · have := ihr q hq
        omega

theorem root_to_leaf_paths_attain_height (n : Node T) (hn : n ≠ .null) :
    ∃ p ∈ root_to_leaf_paths n, p.length = height_impl n := by
  induction n with
  | null => exact absurd rfl hn
  | mk d l r ihl ihr =>
    cases l with
    | null =>
      cases r with
      | null => exact ⟨[d], by simp [root_to_leaf_paths, empty_impl], by simp [height_impl]⟩
      | mk dr lr rr =>
        obtain ⟨q, hq, hlen⟩ := ihr (by simp)
        refine ⟨d :: q, ?_, ?_⟩
        · simp only [root_to_leaf_paths, empty_impl] at hq ⊢
          simp only [Bool.and_false, Bool.false_eq_true, if_false, List.nil_append,
            List.mem_map]
          exact ⟨q, hq, rfl⟩
        · simp only [List.length_cons, hlen]
          simp [height_impl]
          omega
    | mk dl ll rl =>
      obtain ⟨q, hq, hlen⟩ := ihl (by simp)
      by_cases hcmp : height_impl r ≤ height_impl (.mk dl ll rl)
      · refine ⟨d :: q, ?_, ?_⟩
        · have : root_to_leaf_paths (.mk d (.mk dl ll rl) r) =
              (root_to_leaf_paths (.mk dl ll rl) ++ root_to_leaf_paths r).map (fun p => d :: p) := by
            simp [root_to_leaf_paths, empty_impl]
          rw [this]
          simp only [List.mem_map, List.mem_append]
          exact ⟨q, Or.inl hq, rfl⟩
        · simp only [List.length_cons, hlen]
          rw [height_impl.eq_2 d]
          omega
      · have hr : r ≠ .null := by
          intro hr
          subst hr
          simp [height_impl] at hcmp
        obtain ⟨q', hq', hlen'⟩ := ihr hr
        refine ⟨d :: q', ?_, ?_⟩
        · have : root_to_leaf_paths (.mk d (.mk dl ll rl) r) =
              (root_to_leaf_paths (.mk dl ll rl) ++ root_to_leaf_paths r).map (fun p => d :: p) := by
            simp [root_to_leaf_paths, empty_impl]
          rw [this]
          simp only [List.mem_map, List.mem_append]
          exact ⟨q', Or.inr hq', rfl⟩
        · simp only [List.length_cons, hlen']
          rw [height_impl.eq_2 d]
          omega

/-- C13: `height()` is 0 on the empty tree; on a non-empty tree it is at least 1, it is
1 plus the larger of the heights of the two child subtrees (an absent child having
height 0), and it is the number of nodes on a longest root-to-leaf path. -/
theorem height_spec (t : BinarySearchTree T) :
    (t.empty = true → t.height = 0) ∧
      (t.empty = false → 1 ≤ t.height) ∧
      (∀ d l r, t.root = .mk d l r →
        t.height = 1 + max (BinarySearchTree.height ⟨l⟩) (BinarySearchTree.height ⟨r⟩)) ∧
      BinarySearchTree.height (⟨.null⟩ : BinarySearchTree T) = 0 ∧
      (t.empty = false →
        (∃ p ∈ root_to_leaf_paths t.root, p.length = t.height) ∧
          ∀ p ∈ root_to_leaf_paths t.root, p.length ≤ t.height) := by
  refine ⟨?_, ?_, ?_, rfl, ?_⟩
  · intro he
    rw [BinarySearchTree.height, empty_impl_eq_true.1 he]
    rfl
  · intro he
    have hne : t.root ≠ .null := empty_impl_eq_false.1 he
    cases hr : t.root with
    | null => exact absurd hr hne
    | mk d l r => simp [BinarySearchTree.height, hr, height_impl]
  · intro d l r hr
    simp [BinarySearchTree.height, hr, height_impl]
  · intro he
    exact ⟨root_to_leaf_paths_attain_height t.root (empty_impl_eq_false.1 he),
      root_to_leaf_paths_le_height t.root⟩

theorem height_spec_witness :
    1 ≤ (⟨.mk 10 (.mk 5 (.mk 3 .null .null) (.mk 7 .null .null)) (.mk 15 .null .null)⟩ :
        BinarySearchTree Nat).height ∧
      ((∃ p ∈ root_to_leaf_paths (⟨.mk 10 (.mk 5 (.mk 3 .null .null) (.mk 7 .null .null))
            (.mk 15 .null .null)⟩ : BinarySearchTree Nat).root,
          p.length = (⟨.mk 10 (.mk 5 (.mk 3 .null .null) (.mk 7 .null .null))
            (.mk 15 .null .null)⟩ : BinarySearchTree Nat).height) ∧
        ∀ p ∈ root_to_leaf_paths (⟨.mk 10 (.mk 5 (.mk 3 .null .null) (.mk 7 .null .null))
            (.mk 15 .null .null)⟩ : BinarySearchTree Nat).root,
          p.length ≤ (⟨.mk 10 (.mk 5 (.mk 3 .null .null) (.mk 7 .null .null))
            (.mk 15 .null .null)⟩ : BinarySearchTree Nat).height) ∧
      (BinarySearchTree.new : BinarySearchTree Nat).height = 0 :=
  ⟨(height_spec ⟨.mk 10 (.mk 5 (.mk 3 .null .null) (.mk 7 .null .null)) (.mk 15 .null .null)⟩).2.1
      (by decide),
    (height_spec ⟨.mk 10 (.mk 5 (.mk 3 .null .null) (.mk 7 .null .null))
      (.mk 15 .null .null)⟩).2.2.2.2 (by decide),
    (height_spec BinarySearchTree.new).1 (by decide)⟩

/-- C20: the default-constructed tree has `empty()` true, `size()` 0, `height()` 0, and
its `find(x)`, `min_element()`, `max_element()` and `begin()` all equal `end()`; for every
tree `empty()` holds exactly when `size()` is 0; and after an insertion that returns,
`empty()` is false. -/
theorem empty_spec (t : BinarySearchTree T) (less : T → T → Bool) (x : T) :
    ((BinarySearchTree.new : BinarySearchTree T).empty = true ∧
        (BinarySearchTree.new : BinarySearchTree T).size = 0 ∧
        (BinarySearchTree.new : BinarySearchTree T).height = 0 ∧
        (BinarySearchTree.new : BinarySearchTree T).find x less =
          (BinarySearchTree.new : BinarySearchTree T).end_ ∧
        (BinarySearchTree.new : BinarySearchTree T).min_element =
          (BinarySearchTree.new : BinarySearchTree T).end_ ∧
        (BinarySearchTree.new : BinarySearchTree T).max_element =
          (BinarySearchTree.new : BinarySearchTree T).end_ ∧
        (BinarySearchTree.new : BinarySearchTree T).begin =
          (BinarySearchTree.new : BinarySearchTree T).end_ ∧
        ((BinarySearchTree.new : BinarySearchTree T).end_).is_end = true) ∧
      (t.empty = true ↔ t.size = 0) ∧
      (∀ item t' it, t.insert item less = .returned t' it → t'.empty = false ∧ t'.size ≠ 0) := by
  refine ⟨⟨rfl, rfl, rfl, rfl, rfl, rfl, rfl, rfl⟩, ?_, ?_⟩
  · cases hr : t.root with
    | null => simp [BinarySearchTree.empty, BinarySearchTree.size, hr, empty_impl, size_impl]
    | mk d l r =>
      simp [BinarySearchTree.empty, BinarySearchTree.size, hr, empty_impl, size_impl]
  · intro item t' it hins
    obtain ⟨-, ht', -⟩ := insert_returned_inv t t' item it hins
    subst ht'
    constructor
    · cases hr : t.root with
      | null => simp [BinarySearchTree.empty, insert_impl, empty_impl]
      | mk d l r =>
        simp only [BinarySearchTree.empty, insert_impl]
        split <;> rfl
    · simp [BinarySearchTree.size, size_impl_insert_impl]

theorem empty_spec_witness :
    (⟨.mk 10 .null .null⟩ : BinarySearchTree Nat).empty = false ∧
      (⟨.mk 10 .null .null⟩ : BinarySearchTree Nat).size ≠ 0 :=
  (empty_spec (BinarySearchTree.new : BinarySearchTree Nat) natLess 0).2.2 10
    ⟨.mk 10 .null .null⟩ ⟨.mk 10 .null .null, .mk 10 .null .null⟩ (by decide)

/-! ## Ascending insertions -/

theorem size_impl_right_spine (xs : List T) : size_impl (right_spine xs) = xs.length := by
  induction xs with
  | nil => rfl
  | cons x xs ih => simp [right_spine, size_impl, ih]; omega

theorem height_impl_right_spine (xs : List T) : height_impl (right_spine xs) = xs.length := by
  induction xs with
  | nil => rfl
  | cons x xs ih => simp [right_spine, height_impl, ih]; omega

theorem reaches_right_spine (xs : List T) (d : T) (l r : Node T)
    (hr : Reaches (right_spine xs) (.mk d l r)) : l = .null := by
  induction xs with
  | nil => exact absurd hr (by simp [right_spine, Reaches])
  | cons x xs ih =>
    simp only [right_spine, Reaches] at hr
    rcases hr with heq | hf | hr
    · injection heq with _ h2 _
    · exact absurd hf (by simp)
    · exact ih hr

theorem insert_impl_right_spine (less : T → T → Bool) (pre : List T) (x : T)
    (hx : ∀ e ∈ pre, less x e = false) :
    insert_impl (right_spine pre) x less = right_spine (pre ++ [x]) := by
  induction pre with
  | nil => rfl
  | cons e pre ih =>
    have he : less x e = false := hx e (by simp)
    simp [right_spine, insert_impl, he, ih (fun e' he' => hx e' (by simp [he']))]

theorem find_impl_right_spine (less : T → T → Bool) (pre : List T) (x : T)
    (hx : ∀ e ∈ pre, less e x = true) : find_impl (right_spine pre) x less = .null := by
  induction pre with
  | nil => rfl
  | cons e pre ih =>
    have he : less e x = true := hx e (by simp)
    simp [right_spine, find_impl, he, ih (fun e' he' => hx e' (by simp [he']))]

/-- Inserting a strictly ascending run into a right spine whose elements are all smaller
extends the spine. -/
theorem insert_seq_right_spine {less : T → T → Bool} (h : StrictWeakOrder less)
    (xs pre : List T) (hs : (pre ++ xs).Pairwise (fun a b => less a b = true)) :
    insert_seq less ⟨right_spine pre⟩ xs = some ⟨right_spine (pre ++ xs)⟩ := by
  induction xs generalizing pre with
  | nil => simp [insert_seq]
  | cons x xs ih =>
    have hlt : ∀ e ∈ pre, less e x = true := by
      intro e he
      rw [List.pairwise_append] at hs
      exact hs.2.2 e he x (by simp)
    have hf : find_impl (right_spine pre) x less = .null := find_impl_right_spine less pre x hlt
    have hi : insert_impl (right_spine pre) x less = right_spine (pre ++ [x]) :=
      insert_impl_right_spine less pre x (fun e he => h.asymm (hlt e he))
    have hrec := ih (pre ++ [x]) (by simpa using hs)
    simp only [insert_seq, BinarySearchTree.insert, BinarySearchTree.find, Iterator.is_end, hf,
      empty_impl, if_true, hi]
    simpa using hrec

/-- C19: for every `n`, inserting `1, 2, ..., n` in ascending order into the empty tree
of integers returns every time and leaves a tree of size `n` and height `n` in which no
node has a left child; in particular for `n = 15` and `n = 10000`. -/
theorem ascending_insertions_degenerate (n : Nat) :
    ∃ t, insert_seq natLess BinarySearchTree.new (List.range' 1 n) = some t ∧
      t.size = n ∧ t.height = n ∧ (∀ d l r, Reaches t.root (.mk d l r) → l = .null) ∧
      t.root = right_spine (List.range' 1 n) := by
  have hs : (([] : List Nat) ++ List.range' 1 n).Pairwise (fun a b => natLess a b = true) := by
    have := List.pairwise_lt_range' 1 n
    simpa [natLess] using this
  have := insert_seq_right_spine natLess_swo (List.range' 1 n) [] hs
  refine ⟨⟨right_spine (List.range' 1 n)⟩, by simpa [right_spine, BinarySearchTree.new] using this,
    ?_, ?_, ?_, rfl⟩
  · simp [BinarySearchTree.size, size_impl_right_spine]
  · simp [BinarySearchTree.height, height_impl_right_spine]
  · intro d l r hr
    exact reaches_right_spine _ d l r hr

/-! ## Printing -/

theorem iterate_begin_eq {less : T → T → Bool} (h : StrictWeakOrder less)
    (t : BinarySearchTree T) (ho : Ordered less t.root) (fuel : Nat) (hfuel : t.size ≤ fuel) :
    iterate less fuel t.begin = some (elems t.root, t.size) := by
  cases hroot : t.root with
  | null =>
    simp [BinarySearchTree.begin, BinarySearchTree.size, hroot, empty_impl, size_impl, elems,
      iterate_of_is_end less fuel Iterator.default rfl]
  | mk d l r =>
    obtain ⟨a, r', ys, h1, h2, h3⟩ := min_element_impl_spec t.root (by simp [hroot])
    have hsize : t.size = ys.length + 1 := by
      rw [BinarySearchTree.size, size_impl_eq_length, h2]; simp
    have hbegin : t.begin = ⟨t.root, min_element_impl t.root⟩ := by
      simp [BinarySearchTree.begin, hroot, empty_impl]
    have := iterate_spec h t.root ho ys [] a ⟨t.root, min_element_impl t.root⟩
      (by simpa using h2) rfl (by simpa [h1] using h3) (by simp [Iterator.deref, h1]) fuel
      (by omega)
    rw [hbegin, this, hsize, ← hroot, h2]

theorem print_loop_eq_iterate (less : T → T → Bool) (fmt : T → String) (fuel : Nat) :
    ∀ (it : Iterator T) (os : String),
      print_loop less fmt fuel it os =
        (iterate less fuel it).map (fun p => os ++ render fmt p.1) := by
  induction fuel with
  | zero =>
    intro it os
    cases he : it.is_end <;> simp [print_loop, iterate, he, render]
  | succ f ih =>
    intro it os
    cases he : it.is_end with
    | true => simp [print_loop, iterate, he, render]
    | false =>
      cases hd : it.deref with
      | none => simp [print_loop, iterate, he, hd]
      | some v =>
        cases hi : it.incr less with
        | none => simp [print_loop, iterate, he, hd, hi]
        | some it' =>
          simp only [print_loop, iterate, he, hd, hi, ih it', Option.map_map, Bool.false_eq_true,
            if_false]
          congr 1
          funext p
          simp [render, String.append_assoc]

/-- C18: for a tree built by insertions, `operator<<` writes `"[ "`, then for each element
in ascending order its text followed by one space, then `"]"`, which is
`"[ " + to_string() + "]"`; the empty tree is written as `"[ ]"`. -/
theorem operator_print_spec {less : T → T → Bool} (h : StrictWeakOrder less)
    (xs : List T) (t : BinarySearchTree T)
    (hb : insert_seq less BinarySearchTree.new xs = some t) (fmt : T → String) (os : String)
    (fuel : Nat) (hfuel : t.size ≤ fuel) :
    operator_print os t less fmt fuel = some (os ++ "[ " ++ t.to_string fmt ++ "]") ∧
      (∃ ys, ys.Perm xs ∧ ys.Pairwise (fun a b => less a b = true) ∧
        operator_print os t less fmt fuel = some (os ++ "[ " ++ render fmt ys ++ "]")) ∧
      operator_print "" (BinarySearchTree.new : BinarySearchTree T) less fmt fuel = some "[ ]" := by
  obtain ⟨ho, hperm⟩ := insert_seq_new_inv h xs t hb
  have h2 := iterate_begin_eq h t ho
  have hts : t.to_string fmt = render fmt (elems t.root) := by
    simp [BinarySearchTree.to_string, BinarySearchTree.traverse_inorder, traverse_inorder_impl_eq]
  have hp : operator_print os t less fmt fuel =
      some (os ++ "[ " ++ render fmt (elems t.root) ++ "]") := by
    simp [operator_print, print_loop_eq_iterate, h2 fuel hfuel]
  refine ⟨by rw [hp, hts], ⟨elems t.root, hperm, ordered_elems_pairwise h t.root ho, hp⟩, ?_⟩
  cases fuel <;> rfl

theorem operator_print_spec_witness :
    operator_print "" (⟨.mk 10 (.mk 5 .null .null) (.mk 15 .null .null)⟩ : BinarySearchTree Nat)
        natLess Nat.repr 3 =
      some ("" ++ "[ " ++ (⟨.mk 10 (.mk 5 .null .null) (.mk 15 .null .null)⟩ :
        BinarySearchTree Nat).to_string Nat.repr ++ "]") :=
  (operator_print_spec natLess_swo [10, 5, 15] ⟨.mk 10 (.mk 5 .null .null) (.mk 15 .null .null)⟩
    (by decide) Nat.repr "" 3 (by decide)).1

/-! ## The map adaptor: keys only -/

theorem equiv_pairComp (kc : K → K → Bool) (p q : K × V) :
    equiv (PairComp kc) p q = equiv kc p.1 q.1 := rfl

theorem pairComp_swo {kc : K → K → Bool} (h : StrictWeakOrder kc) :
    StrictWeakOrder (PairComp kc : K × V → K × V → Bool) := by
  refine ⟨?_, ?_, ?_⟩
  · intro a
    exact h.irrefl a.1
  · intro a b c hab hbc
    exact h.trans a.1 b.1 c.1 hab hbc
  · intro a b c hab hbc
    rw [equiv_pairComp] at hab hbc ⊢
    exact h.incomp_trans a.1 b.1 c.1 hab hbc

theorem eq_of_mem_of_equiv {less : T → T → Bool} (l : List T)
    (hp : l.Pairwise (fun a b => less a b = true)) (a b : T) (ha : a ∈ l) (hb : b ∈ l)
    (he : equiv less a b = true) : a = b := by
  induction l with
  | nil => simp at ha
  | cons x l ih =>
    rw [List.pairwise_cons] at hp
    obtain ⟨he1, he2⟩ := equiv_iff.1 he
    rcases List.mem_cons.1 ha with hax | ha'
    · rcases List.mem_cons.1 hb with hbx | hb'
      · rw [hax, hbx]
      · rw [hax, hp.1 b hb'] at he1
        exact absurd he1 (by simp)
    · rcases List.mem_cons.1 hb with hbx | hb'
      · rw [hbx, hp.1 a ha'] at he2
        exact absurd he2 (by simp)
      · exact ih hp.2 ha' hb'

theorem insert_seq_snoc {less : T → T → Bool} (xs : List T) (x : T)
    (t t' t'' : BinarySearchTree T) (it : Iterator T)
    (hs : insert_seq less t xs = some t') (hi : t'.insert x less = .returned t'' it) :
    insert_seq less t (xs ++ [x]) = some t'' := by
  induction xs generalizing t with
  | nil =>
    simp only [insert_seq, Option.some.injEq] at hs
    subst hs
    simp [insert_seq, hi]
  | cons y ys ih =>
    cases hins : t.insert y less with
    | aborted b =>
      simp [insert_seq, hins] at hs
    | returned t1 it1 =>
      simp only [insert_seq, hins] at hs
      simp only [List.cons_append, insert_seq, hins]
      exact ih t1 hs

/-- Looking up something not equivalent to the inserted item finds the same element
before and after the insertion. -/
theorem find_impl_insert_impl_other (less : T → T → Bool) (item q : T)
    (hne : equiv less item q = false) (n : Node T) (r1 r2 : Node T) :
    (⟨r1, find_impl (insert_impl n item less) q less⟩ : Iterator T).deref =
        (⟨r2, find_impl n q less⟩ : Iterator T).deref ∧
      (⟨r1, find_impl (insert_impl n item less) q less⟩ : Iterator T).is_end =
        (⟨r2, find_impl n q less⟩ : Iterator T).is_end := by
  induction n with
  | null =>
    cases h1 : less item q <;> cases h2 : less q item <;> simp [equiv, h1, h2] at hne <;>
      simp [insert_impl, find_impl, h1, h2, Iterator.deref, Iterator.is_end, empty_impl]
  | mk d l r ihl ihr =>
    cases hlt : less item d <;> cases h1 : less d q <;> cases h2 : less q d <;>
      simp only [insert_impl, find_impl, hlt, h1, h2, Bool.not_false, Bool.not_true,
        Bool.and_self, Bool.and_true, Bool.and_false, Bool.true_and, Bool.false_and,
        Bool.false_eq_true, if_true, if_false] <;>
      first
        | exact ihl
        | exact ihr
        | simp [Iterator.deref, Iterator.is_end, empty_impl]

theorem map_find_absent {kc : K → K → Bool} (h : StrictWeakOrder kc) (ps : List (K × V))
    (m : Map K V) (hb : insert_seq (PairComp kc) BinarySearchTree.new ps = some m.bst)
    (k : K) (vinit : V) :
    (m.find k kc vinit).is_end = true ↔ ∀ p ∈ ps, equiv kc p.1 k = false := by
  obtain ⟨ho, hperm⟩ := insert_seq_new_inv (pairComp_swo h) ps m.bst hb
  rw [Map.find, find_is_end_iff, find_impl_null_iff (pairComp_swo h) (k, vinit) m.bst.root ho]
  constructor
  · intro hall p hp
    exact hall p (hperm.mem_iff.2 hp)
  · intro hall p hp
    exact hall p (hperm.mem_iff.1 hp)

theorem map_find_present {kc : K → K → Bool} (h : StrictWeakOrder kc) (ps : List (K × V))
    (m : Map K V) (hb : insert_seq (PairComp kc) BinarySearchTree.new ps = some m.bst)
    (k : K) (vinit : V) (p : K × V) (hp : p ∈ ps) (he : equiv kc p.1 k = true) :
    (m.find k kc vinit).is_end = false ∧ (m.find k kc vinit).deref = some p := by
  have hswo : StrictWeakOrder (PairComp kc : K × V → K × V → Bool) := pairComp_swo h
  obtain ⟨ho, hperm⟩ := insert_seq_new_inv hswo ps m.bst hb
  have hne : (m.find k kc vinit).is_end = false := by
    cases hf : (m.find k kc vinit).is_end with
    | false => rfl
    | true =>
      have := (map_find_absent h ps m hb k vinit).1 hf p hp
      rw [this] at he
      exact absurd he (by simp)
  refine ⟨hne, ?_⟩
  simp only [Map.find, BinarySearchTree.find, Iterator.is_end, empty_impl_eq_false] at hne
  cases hf : find_impl m.bst.root (k, vinit) (PairComp kc) with
  | null => exact absurd hf hne
  | mk d l r =>
    obtain ⟨hm, hd⟩ := find_impl_datum (PairComp kc) (k, vinit) m.bst.root hf
    have hpk : equiv (PairComp kc) (k, vinit) p = true := by
      rw [equiv_comm, equiv_pairComp]
      exact he
    have hdp : equiv (PairComp kc) d p = true := hswo.incomp_trans d (k, vinit) p hd hpk
    have := eq_of_mem_of_equiv (elems m.bst.root) (ordered_elems_pairwise hswo _ ho) d p hm
      (hperm.mem_iff.2 hp) hdp
    simp [Map.find, BinarySearchTree.find, Iterator.deref, hf, this]

theorem map_insert_returned_inv (kc : K → K → Bool) (vinit : V) (m m' : Map K V)
    (val : K × V) (res : Iterator (K × V) × Bool)
    (hr : m.insert val kc vinit = .returned m' res) :
    ∃ it, m.bst.insert val (PairComp kc) = .returned m'.bst it := by
  unfold Map.insert at hr
  cases hins : m.bst.insert val (PairComp kc) with
  | aborted b =>
    rw [hins] at hr
    exact Outcome.noConfusion hr
  | returned b it =>
    rw [hins] at hr
    refine ⟨it, ?_⟩
    simp only at hr
    split at hr
    · injection hr with h1 _
      rw [← h1]
    · injection hr with h1 _
      rw [← h1]

theorem map_insert_absent {kc : K → K → Bool} (h : StrictWeakOrder kc) (ps : List (K × V))
    (m : Map K V) (hb : insert_seq (PairComp kc) BinarySearchTree.new ps = some m.bst)
    (val : K × V) (vinit : V) (habs : ∀ p ∈ ps, equiv kc p.1 val.1 = false) :
    m.insert val kc vinit =
        .returned ⟨⟨insert_impl m.bst.root val (PairComp kc)⟩⟩
          (⟨insert_impl m.bst.root val (PairComp kc), .mk val .null .null⟩, true) ∧
      insert_seq (PairComp kc) BinarySearchTree.new (ps ++ [val]) =
        some ⟨insert_impl m.bst.root val (PairComp kc)⟩ := by
  have hswo : StrictWeakOrder (PairComp kc : K × V → K × V → Bool) := pairComp_swo h
  obtain ⟨ho, hperm⟩ := insert_seq_new_inv hswo ps m.bst hb
  have hins := insert_eq_of_absent hswo m.bst ho val
    (fun e he => habs e (hperm.mem_iff.1 he))
  refine ⟨?_, insert_seq_snoc ps val _ m.bst _ _ hb hins⟩
  simp [Map.insert, hins, Iterator.is_end, empty_impl]

/-! ## Claims about the map adaptor -/

/-- C14: `Map::operator[]` is find-or-insert.  For a key not in the map, `m[k]` inserts
exactly the pair `(k, Value_type())`, `size()` grows by exactly 1, the value returned is
that pair's value, and a second `m[k]` inserts nothing and returns the same value.  For a
key already in the map, `m[k]` leaves the map as it is and returns the value stored for
the key. -/
theorem operator_subscript_spec {kc : K → K → Bool} (h : StrictWeakOrder kc)
    (ps : List (K × V)) (m : Map K V)
    (hb : insert_seq (PairComp kc) BinarySearchTree.new ps = some m.bst) (k : K) (vinit : V) :
    ((∀ p ∈ ps, equiv kc p.1 k = false) →
        ∃ m', m.operator_subscript k kc vinit = .returned m' (some vinit) ∧
          m'.size = m.size + 1 ∧
          m'.bst.root = insert_impl m.bst.root (k, vinit) (PairComp kc) ∧
          insert_seq (PairComp kc) BinarySearchTree.new (ps ++ [(k, vinit)]) = some m'.bst ∧
          m'.operator_subscript k kc vinit = .returned m' (some vinit)) ∧
      (∀ p ∈ ps, equiv kc p.1 k = true →
        m.operator_subscript k kc vinit = .returned m (some p.2)) := by
  have present : ∀ (qs : List (K × V)) (n : Map K V),
      insert_seq (PairComp kc) BinarySearchTree.new qs = some n.bst →
      ∀ p ∈ qs, equiv kc p.1 k = true →
        n.operator_subscript k kc vinit = .returned n (some p.2) := by
    intro qs n hn p hp he
    obtain ⟨h1, h2⟩ := map_find_present h qs n hn k vinit p hp he
    simp [Map.operator_subscript, h1, h2]
  refine ⟨?_, present ps m hb⟩
  intro habs
  have hf : (m.find k kc vinit).is_end = true := (map_find_absent h ps m hb k vinit).2 habs
  obtain ⟨hins, hseq⟩ := map_insert_absent h ps m hb (k, vinit) vinit habs
  refine ⟨⟨⟨insert_impl m.bst.root (k, vinit) (PairComp kc)⟩⟩, ?_, ?_, rfl, hseq, ?_⟩
  · simp [Map.operator_subscript, hf, hins, Iterator.deref]
  · simp [Map.size, BinarySearchTree.size, size_impl_insert_impl]
  · exact present (ps ++ [(k, vinit)]) _ hseq (k, vinit) (by simp) (h.equiv_refl k)

theorem operator_subscript_spec_witness :
    ((∀ p ∈ [((1 : Nat), (10 : Nat))], equiv natLess p.1 2 = false) →
        ∃ m', (⟨⟨.mk (1, 10) .null .null⟩⟩ : Map Nat Nat).operator_subscript 2 natLess 0 =
            .returned m' (some 0) ∧
          m'.size = (⟨⟨.mk (1, 10) .null .null⟩⟩ : Map Nat Nat).size + 1 ∧
          m'.bst.root = insert_impl (⟨⟨.mk (1, 10) .null .null⟩⟩ : Map Nat Nat).bst.root (2, 0)
            (PairComp natLess) ∧
          insert_seq (PairComp natLess) BinarySearchTree.new ([(1, 10)] ++ [(2, 0)]) =
            some m'.bst ∧
          m'.operator_subscript 2 natLess 0 = .returned m' (some 0)) ∧
      (∀ p ∈ [((1 : Nat), (10 : Nat))], equiv natLess p.1 2 = true →
        (⟨⟨.mk (1, 10) .null .null⟩⟩ : Map Nat Nat).operator_subscript 2 natLess 0 =
          .returned ⟨⟨.mk (1, 10) .null .null⟩⟩ (some p.2)) :=
  operator_subscript_spec natLess_swo [(1, 10)] ⟨⟨.mk (1, 10) .null .null⟩⟩ (by decide) 2 0

/-- C15: for a pair `(k, v)` whose key is not in the map, `insert({k, v})` returns
`(it, true)` with `*it == (k, v)`, `size()` grows by exactly 1, afterwards `find(k)`
dereferences to `(k, v)`, and for every other key the result of `find` (past-the-end or
not, and the pair found) is what it was before. -/
theorem map_insert_find_round_trip {kc : K → K → Bool} (h : StrictWeakOrder kc)
    (ps : List (K × V)) (m : Map K V)
    (hb : insert_seq (PairComp kc) BinarySearchTree.new ps = some m.bst) (k : K) (v vinit : V)
    (habs : ∀ p ∈ ps, equiv kc p.1 k = false) :
    ∃ m' it, m.insert (k, v) kc vinit = .returned m' (it, true) ∧ it.is_end = false ∧
      it.deref = some (k, v) ∧ m'.size = m.size + 1 ∧
      (m'.find k kc vinit).deref = some (k, v) ∧
      ∀ k', equiv kc k k' = false →
        (m'.find k' kc vinit).deref = (m.find k' kc vinit).deref ∧
          (m'.find k' kc vinit).is_end = (m.find k' kc vinit).is_end := by
  obtain ⟨hins, hseq⟩ := map_insert_absent h ps m hb (k, v) vinit habs
  refine ⟨⟨⟨insert_impl m.bst.root (k, v) (PairComp kc)⟩⟩, _, hins, rfl, rfl, ?_, ?_, ?_⟩
  · simp [Map.size, BinarySearchTree.size, size_impl_insert_impl]
  · exact (map_find_present h (ps ++ [(k, v)]) _ hseq k vinit (k, v) (by simp)
      (h.equiv_refl k)).2
  · intro k' hk'
    exact find_impl_insert_impl_other (PairComp kc) (k, v) (k', vinit) hk' m.bst.root _ _

theorem map_insert_find_round_trip_witness :
    ∃ m' it, (⟨⟨.mk (1, 10) .null .null⟩⟩ : Map Nat Nat).insert (2, 20) natLess 0 =
        .returned m' (it, true) ∧ it.is_end = false ∧
      it.deref = some (2, 20) ∧ m'.size = (⟨⟨.mk (1, 10) .null .null⟩⟩ : Map Nat Nat).size + 1 ∧
      (m'.find 2 natLess 0).deref = some (2, 20) ∧
      ∀ k', equiv natLess 2 k' = false →
        (m'.find k' natLess 0).deref =
            ((⟨⟨.mk (1, 10) .null .null⟩⟩ : Map Nat Nat).find k' natLess 0).deref ∧
          (m'.find k' natLess 0).is_end =
            ((⟨⟨.mk (1, 10) .null .null⟩⟩ : Map Nat Nat).find k' natLess 0).is_end :=
  map_insert_find_round_trip natLess_swo [(1, 10)] ⟨⟨.mk (1, 10) .null .null⟩⟩ (by decide)
    2 20 0 (by decide)

theorem find_impl_map_values (kc : K → K → Bool) (g : K × V → V) (k : K) (v1 v2 : V)
    (n : Node (K × V)) :
    find_impl (map_values g n) (k, v1) (PairComp kc) =
      map_values g (find_impl n (k, v2) (PairComp kc)) := by
  induction n with
  | null => rfl
  | mk d l r ihl ihr =>
    cases h1 : kc d.1 k <;> cases h2 : kc k d.1 <;>
      simp [map_values, find_impl, PairComp, h1, h2, ihl, ihr]

/-- C16: on a map built by insertions, `Map::find(k)` is past-the-end exactly when no
stored pair has a key comparator-equal to `k`, and otherwise is at the stored pair with
such a key; the result does not depend on the value put in the probe pair, and the node
reached does not depend on the stored values (replacing them leaves the search at the
same place), the comparator looking at first components only. -/
theorem map_find_spec {kc : K → K → Bool} (h : StrictWeakOrder kc)
    (ps : List (K × V)) (m : Map K V)
    (hb : insert_seq (PairComp kc) BinarySearchTree.new ps = some m.bst) (k : K) (vinit : V) :
    ((m.find k kc vinit).is_end = true ↔ ∀ p ∈ ps, equiv kc p.1 k = false) ∧
      (∀ p ∈ ps, equiv kc p.1 k = true →
        (m.find k kc vinit).is_end = false ∧ (m.find k kc vinit).deref = some p) ∧
      (∀ v1 v2 : V, m.find k kc v1 = m.find k kc v2) ∧
      (∀ (g : K × V → V) (v1 v2 : V),
        (Map.find ⟨⟨map_values g m.bst.root⟩⟩ k kc v1).current_node =
          map_values g (m.find k kc v2).current_node) ∧
      (∀ (p q : K × V) (v1 v2 : V), PairComp kc (p.1, v1) (q.1, v2) = PairComp kc p q) := by
  refine ⟨map_find_absent h ps m hb k vinit,
    fun p hp he => map_find_present h ps m hb k vinit p hp he, ?_, ?_, fun _ _ _ _ => rfl⟩
  · intro v1 v2
    have := find_impl_map_values kc (fun d => d.2) k v1 v2 m.bst.root
    have hid : ∀ n : Node (K × V), map_values (fun d => d.2) n = n := by
      intro n
      induction n with
      | null => rfl
      | mk d l r ihl ihr => simp [map_values, ihl, ihr]
    rw [hid, hid] at this
    simp [Map.find, BinarySearchTree.find, this]
  · intro g v1 v2
    exact find_impl_map_values kc g k v1 v2 m.bst.root

theorem map_find_spec_witness :
    (((⟨⟨.mk (1, 10) .null .null⟩⟩ : Map Nat Nat).find 1 natLess 0).is_end = true ↔
        ∀ p ∈ [((1 : Nat), (10 : Nat))], equiv natLess p.1 1 = false) ∧
      (∀ p ∈ [((1 : Nat), (10 : Nat))], equiv natLess p.1 1 = true →
        ((⟨⟨.mk (1, 10) .null .null⟩⟩ : Map Nat Nat).find 1 natLess 0).is_end = false ∧
          ((⟨⟨.mk (1, 10) .null .null⟩⟩ : Map Nat Nat).find 1 natLess 0).deref = some p) :=
  ⟨(map_find_spec natLess_swo [(1, 10)] ⟨⟨.mk (1, 10) .null .null⟩⟩ (by decide) 1 0).1,
    (map_find_spec natLess_swo [(1, 10)] ⟨⟨.mk (1, 10) .null .null⟩⟩ (by decide) 1 0).2.1⟩

theorem map_operator_subscript_returned_inv {kc : K → K → Bool} (vinit : V) (m m' : Map K V)
    (k : K) (res : Option V) (hr : m.operator_subscript k kc vinit = .returned m' res) :
    m' = m ∨ ∃ it, m.bst.insert (k, vinit) (PairComp kc) = .returned m'.bst it := by
  unfold Map.operator_subscript at hr
  simp only at hr
  split at hr
  · cases hins : m.insert (k, vinit) kc vinit with
    | aborted b =>
      rw [hins] at hr
      exact Outcome.noConfusion hr
    | returned b r =>
      rw [hins] at hr
      injection hr with h1 _
      subst h1
      exact Or.inr (map_insert_returned_inv kc vinit m b (k, vinit) r hins)
  · injection hr with h1 _
    exact Or.inl h1.symm

/-- Every map reached by calls that complete holds a tree built by insertions. -/
theorem map_run_inv {kc : K → K → Bool} (vinit : V) (calls : List (MapCall K V))
    (m m' : Map K V) (hm : ∃ ps, insert_seq (PairComp kc) BinarySearchTree.new ps = some m.bst)
    (hr : Map.run kc vinit m calls = some m') :
    ∃ ps, insert_seq (PairComp kc) BinarySearchTree.new ps = some m'.bst := by
  induction calls generalizing m with
  | nil =>
    simp only [Map.run, Option.some.injEq] at hr
    subst hr
    exact hm
  | cons c cs ih =>
    obtain ⟨ps, hps⟩ := hm
    cases c with
    | subscript k =>
      cases hc : m.operator_subscript k kc vinit with
      | aborted b => simp [Map.run, hc] at hr
      | returned m1 res =>
        simp only [Map.run, hc] at hr
        refine ih m1 ?_ hr
        rcases map_operator_subscript_returned_inv vinit m m1 k res hc with heq | ⟨it, hins⟩
        · rw [heq]; exact ⟨ps, hps⟩
        · exact ⟨ps ++ [(k, vinit)], insert_seq_snoc ps (k, vinit) _ m.bst _ it hps hins⟩
    | insert val =>
      cases hc : m.insert val kc vinit with
      | aborted b => simp [Map.run, hc] at hr
      | returned m1 res =>
        simp only [Map.run, hc] at hr
        refine ih m1 ?_ hr
        obtain ⟨it, hins⟩ := map_insert_returned_inv kc vinit m m1 val res hc
        exact ⟨ps ++ [val], insert_seq_snoc ps val _ m.bst _ it hps hins⟩

/-- C17: in every map reached from the empty map by `operator[]` and `insert` calls that
complete, no two stored pairs have comparator-equal keys, so the stored keys are pairwise
distinct and `size()` is their number. -/
theorem map_keys_unique {kc : K → K → Bool} (h : StrictWeakOrder kc) (vinit : V)
    (calls : List (MapCall K V)) (m : Map K V)
    (hr : Map.run kc vinit Map.new calls = some m) :
    ((elems m.bst.root).map Prod.fst).Pairwise (fun a b => equiv kc a b = false) ∧
      ((elems m.bst.root).map Prod.fst).Nodup ∧
      m.size = ((elems m.bst.root).map Prod.fst).length ∧
      ∀ fmt os, m.bst.traverse_inorder fmt os = os ++ render fmt (elems m.bst.root) := by
  have hswo : StrictWeakOrder (PairComp kc : K × V → K × V → Bool) := pairComp_swo h
  obtain ⟨ps, hps⟩ := map_run_inv vinit calls Map.new m ⟨[], rfl⟩ hr
  obtain ⟨ho, -⟩ := insert_seq_new_inv hswo ps m.bst hps
  have hpw := ordered_elems_pairwise hswo m.bst.root ho
  have hkeys : ((elems m.bst.root).map Prod.fst).Pairwise (fun a b => kc a b = true) := by
    rw [List.pairwise_map]
    exact hpw
  refine ⟨?_, ?_, ?_, fun fmt os => traverse_inorder_impl_eq fmt m.bst.root os⟩
  · exact hkeys.imp (fun hab => equiv_false_iff.2 (Or.inl hab))
  · exact hkeys.imp (fun hab heq => by
      rw [heq, h.irrefl] at hab
      exact absurd hab (by simp))
  · simp [Map.size, BinarySearchTree.size, size_impl_eq_length]

theorem map_keys_unique_witness :
    ((elems (⟨⟨.mk (2, 0) (.mk (1, 10) .null .null) .null⟩⟩ : Map Nat Nat).bst.root).map
          Prod.fst).Pairwise (fun a b => equiv natLess a b = false) ∧
      ((elems (⟨⟨.mk (2, 0) (.mk (1, 10) .null .null) .null⟩⟩ : Map Nat Nat).bst.root).map
          Prod.fst).Nodup ∧
      (⟨⟨.mk (2, 0) (.mk (1, 10) .null .null) .null⟩⟩ : Map Nat Nat).size =
        ((elems (⟨⟨.mk (2, 0) (.mk (1, 10) .null .null) .null⟩⟩ : Map Nat Nat).bst.root).map
          Prod.fst).length ∧
      ∀ fmt os, (⟨⟨.mk (2, 0) (.mk (1, 10) .null .null) .null⟩⟩ :
          Map Nat Nat).bst.traverse_inorder fmt os =
        os ++ render fmt (elems (⟨⟨.mk (2, 0) (.mk (1, 10) .null .null) .null⟩⟩ :
          Map Nat Nat).bst.root) :=
  map_keys_unique natLess_swo 0 [.subscript 2, .insert (1, 10), .subscript 2]
    ⟨⟨.mk (2, 0) (.mk (1, 10) .null .null) .null⟩⟩ (by decide)

/-! ## Claims about pre-order, the sorting check and the shape after an insertion -/

theorem traverse_preorder_impl_eq (fmt : T → String) (n : Node T) (os : String) :
    traverse_preorder_impl fmt n os = os ++ render fmt (preorder_elems n) := by
  induction n generalizing os with
  | null => simp [traverse_preorder_impl, preorder_elems, render]
  | mk d l r ihl ihr =>
    simp [traverse_preorder_impl, preorder_elems, render, render_append, ihl, ihr,
      String.append_assoc]

/-- C21: `traverse_preorder` writes a node's element, then everything in its left
subtree, then everything in its right subtree, each element followed by one space; and
the tree built by inserting 10, 5, 15, 3, 7 has pre-order text `"10 5 3 7 15 "`, in-order
text `"3 5 7 10 15 "`, size 5, height 3, `min_element()` at 3 and `max_element()` at 15. -/
theorem traverse_preorder_spec :
    (∀ (fmt : T → String) (d : T) (l r : Node T) (os : String),
        BinarySearchTree.traverse_preorder ⟨.mk d l r⟩ fmt os =
          BinarySearchTree.traverse_preorder ⟨r⟩ fmt
            (BinarySearchTree.traverse_preorder ⟨l⟩ fmt (os ++ fmt d ++ " "))) ∧
      (∀ (fmt : T → String) (t : BinarySearchTree T) (os : String),
        t.traverse_preorder fmt os = os ++ render fmt (preorder_elems t.root)) ∧
      (∀ (fmt : T → String) (os : String),
        (BinarySearchTree.new : BinarySearchTree T).traverse_preorder fmt os = os) ∧
      ∃ t : BinarySearchTree Nat,
        insert_seq natLess BinarySearchTree.new [10, 5, 15, 3, 7] = some t ∧
          t.traverse_preorder Nat.repr "" = "10 5 3 7 15 " ∧
          t.traverse_inorder Nat.repr "" = "3 5 7 10 15 " ∧
          t.size = 5 ∧ t.height = 3 ∧
          t.min_element.deref = some 3 ∧ t.max_element.deref = some 15 := by
  refine ⟨fun _ _ _ _ _ => rfl, fun fmt t os => traverse_preorder_impl_eq fmt t.root os,
    fun _ _ => rfl, ?_⟩
  refine ⟨⟨.mk 10 (.mk 5 (.mk 3 .null .null) (.mk 7 .null .null)) (.mk 15 .null .null)⟩,
    by decide, by decide, by decide, by decide, by decide, by decide, by decide⟩

/-- C23: the tree with root 10, left child 5 and 20 as right child of 5 passes
`check_sorting_invariant()` although its in-order sequence 5, 20, 10 is not ascending and
the ordering over whole subtrees fails; no sequence of insertions produces it. -/
theorem check_sorting_invariant_pairwise_only :
    (⟨.mk 10 (.mk 5 .null (.mk 20 .null .null)) .null⟩ :
        BinarySearchTree Nat).check_sorting_invariant natLess = true ∧
      (⟨.mk 10 (.mk 5 .null (.mk 20 .null .null)) .null⟩ :
        BinarySearchTree Nat).traverse_inorder Nat.repr "" = "5 20 10 " ∧
      elems (.mk 10 (.mk 5 .null (.mk 20 .null .null)) .null : Node Nat) = [5, 20, 10] ∧
      ¬ (elems (.mk 10 (.mk 5 .null (.mk 20 .null .null)) .null : Node Nat)).Pairwise
        (fun a b => natLess a b = true) ∧
      ¬ Ordered natLess (.mk 10 (.mk 5 .null (.mk 20 .null .null)) .null : Node Nat) ∧
      ∀ xs, insert_seq natLess BinarySearchTree.new xs ≠
        some ⟨.mk 10 (.mk 5 .null (.mk 20 .null .null)) .null⟩ := by
  have hno : ¬ Ordered natLess (.mk 10 (.mk 5 .null (.mk 20 .null .null)) .null : Node Nat) := by
    intro ho
    have := ho.1 20 (by simp [elems])
    exact absurd this (by decide)
  refine ⟨by decide, by decide, by decide, by decide, hno, ?_⟩
  intro xs hxs
  exact hno (insert_seq_new_inv natLess_swo xs _ hxs).1

theorem check_sorting_invariant_impl_mk (less : T → T → Bool) (d : T) (l r : Node T) :
    check_sorting_invariant_impl (.mk d l r) less = true ↔
      ((∀ dl ll rl, l = .mk dl ll rl → less d dl = false) ∧
          (∀ dr lr rr, r = .mk dr lr rr → less dr d = false)) ∧
        check_sorting_invariant_impl l less = true ∧
        check_sorting_invariant_impl r less = true := by
  conv => lhs; unfold check_sorting_invariant_impl
  cases l with
  | null =>
    cases r with
    | null => simp
    | mk dr lr rr => cases h2 : less dr d <;> simp [h2]
  | mk dl ll rl =>
    cases r with
    | null => cases h1 : less d dl <;> simp [h1]
    | mk dr lr rr => cases h1 : less d dl <;> cases h2 : less dr d <;> simp [h1, h2]

theorem check_sorting_invariant_impl_iff (less : T → T → Bool) (n : Node T) :
    check_sorting_invariant_impl n less = true ↔ NoInversion less n := by
  induction n with
  | null =>
    constructor
    · intro _ d l r hr
      exact absurd hr (by simp [Reaches])
    · intro _
      rfl
  | mk d l r ihl ihr =>
    rw [check_sorting_invariant_impl_mk]
    constructor
    · rintro ⟨hroot, hl, hr⟩ d' l' r' hreach
      rcases hreach with heq | hreach | hreach
      · injection heq with e1 e2 e3
        subst e1 e2 e3
        exact hroot
      · exact ihl.1 hl d' l' r' hreach
      · exact ihr.1 hr d' l' r' hreach
    · intro hni
      refine ⟨hni d l r (Or.inl rfl), ihl.2 ?_, ihr.2 ?_⟩
      · intro d' l' r' hreach
        exact hni d' l' r' (Or.inr (Or.inl hreach))
      · intro d' l' r' hreach
        exact hni d' l' r' (Or.inr (Or.inr hreach))

/-- C22 as stated fails: the tree with root 5 and left child 5 passes
`check_sorting_invariant()` although its left child is not strictly less than its
parent, so the check is not equivalent to the strict pairwise invariant. -/
theorem check_sorting_invariant_not_strict :
    (⟨.mk 5 (.mk 5 .null .null) .null⟩ : BinarySearchTree Nat).check_sorting_invariant natLess =
        true ∧
      ¬ SpecLocalInvariant natLess (.mk 5 (.mk 5 .null .null) .null : Node Nat) ∧
      ¬ ((⟨.mk 5 (.mk 5 .null .null) .null⟩ : BinarySearchTree Nat).check_sorting_invariant
          natLess = true ↔
        SpecLocalInvariant natLess
          (⟨.mk 5 (.mk 5 .null .null) .null⟩ : BinarySearchTree Nat).root) := by
  have hno : ¬ SpecLocalInvariant natLess (.mk 5 (.mk 5 .null .null) .null : Node Nat) := by
    intro hs
    have := (hs 5 (.mk 5 .null .null) .null (Or.inl rfl)).1 5 .null .null rfl
    exact absurd this (by decide)
  refine ⟨by decide, hno, ?_⟩
  intro hiff
  exact hno (hiff.1 (by decide))

/-- C22 (amended): for every tree of any shape, `check_sorting_invariant()` returns true
exactly when at every node the node's element is not less than that of a left child and
the element of a right child is not less than the node's.  With a strict weak ordering
the strict pairwise invariant implies it, and it implies the strict pairwise invariant
on a tree in which no child is comparator-equal to its parent. -/
theorem check_sorting_invariant_iff_no_inversion (t : BinarySearchTree T)
    (less : T → T → Bool) :
    (t.check_sorting_invariant less = true ↔ NoInversion less t.root) ∧
      (StrictWeakOrder less → SpecLocalInvariant less t.root →
        t.check_sorting_invariant less = true) ∧
      (t.check_sorting_invariant less = true →
        (∀ d l r, Reaches t.root (.mk d l r) →
          (∀ dl ll rl, l = .mk dl ll rl → equiv less dl d = false) ∧
            (∀ dr lr rr, r = .mk dr lr rr → equiv less dr d = false)) →
        SpecLocalInvariant less t.root) := by
  have hiff := check_sorting_invariant_impl_iff less t.root
  refine ⟨hiff, ?_, ?_⟩
  · intro h hs
    refine hiff.2 ?_
    intro d l r hreach
    obtain ⟨h1, h2⟩ := hs d l r hreach
    exact ⟨fun dl ll rl hl => h.asymm (h1 dl ll rl hl),
      fun dr lr rr hr => h.asymm (h2 dr lr rr hr)⟩
  · intro hc hne d l r hreach
    obtain ⟨h1, h2⟩ := hiff.1 hc d l r hreach
    obtain ⟨e1, e2⟩ := hne d l r hreach
    constructor
    · intro dl ll rl hl
      rcases equiv_false_iff.1 (e1 dl ll rl hl) with h3 | h3
      · exact h3
      · rw [h1 dl ll rl hl] at h3
        exact absurd h3 (by simp)
    · intro dr lr rr hr
      rcases equiv_false_iff.1 (e2 dr lr rr hr) with h3 | h3
      · rw [h2 dr lr rr hr] at h3
        exact absurd h3 (by simp)
      · exact h3

theorem check_sorting_invariant_iff_no_inversion_witness :
    NoInversion natLess (⟨.mk 5 (.mk 5 .null .null) .null⟩ : BinarySearchTree Nat).root :=
  (check_sorting_invariant_iff_no_inversion ⟨.mk 5 (.mk 5 .null .null) .null⟩ natLess).1.1
    (by decide)

theorem ordered_of_reaches {less : T → T → Bool} (n c : Node T) (ho : Ordered less n)
    (hr : Reaches n c) : Ordered less c := by
  induction n with
  | null => exact absurd hr (by simp [Reaches])
  | mk d l r ihl ihr =>
    rcases hr with heq | hr | hr
    · rw [heq]; exact ho
    · exact ihl ho.2.2.1 hr
    · exact ihr ho.2.2.2 hr

/-- C24: the empty tree and every tree reached from it by insertions that return are
globally ordered: at every node, every element of the whole left subtree is strictly
less than the node's element and every element of the whole right subtree is strictly
greater; so no two elements are comparator-equal; and one more insertion that returns
keeps it so. -/
theorem global_invariant_preserved {less : T → T → Bool} (h : StrictWeakOrder less)
    (xs : List T) (t : BinarySearchTree T)
    (hb : insert_seq less BinarySearchTree.new xs = some t) :
    Ordered less (BinarySearchTree.new : BinarySearchTree T).root ∧
      Ordered less t.root ∧
      (∀ d l r, Reaches t.root (.mk d l r) →
        (∀ x ∈ elems l, less x d = true) ∧ (∀ x ∈ elems r, less d x = true)) ∧
      xs.Pairwise (fun a b => equiv less a b = false) ∧
      (elems t.root).Pairwise (fun a b => equiv less a b = false) ∧
      ∀ item t' it, t.insert item less = .returned t' it → Ordered less t'.root := by
  obtain ⟨ho, -, hpw, -⟩ := insert_seq_inv h xs BinarySearchTree.new t
    (by simp [BinarySearchTree.new, Ordered]) hb
  refine ⟨by simp [BinarySearchTree.new, Ordered], ho, ?_, hpw, ?_, ?_⟩
  · intro d l r hreach
    have := ordered_of_reaches t.root _ ho hreach
    exact ⟨this.1, this.2.1⟩
  · exact (ordered_elems_pairwise h t.root ho).imp (fun hab => equiv_false_iff.2 (Or.inl hab))
  · intro item t' it hins
    obtain ⟨hf, ht', -⟩ := insert_returned_inv t t' item it hins
    rw [ht']
    exact ordered_insert_impl item t.root ho
      ((find_impl_null_iff h item t.root ho).1 ((find_is_end_iff less t item).1 hf))

theorem global_invariant_preserved_witness :
    Ordered natLess (BinarySearchTree.new : BinarySearchTree Nat).root ∧
      Ordered natLess (⟨.mk 10 (.mk 5 (.mk 3 .null .null) (.mk 7 .null .null))
        (.mk 15 .null .null)⟩ : BinarySearchTree Nat).root :=
  ⟨(global_invariant_preserved natLess_swo [10, 5, 15, 3, 7]
      ⟨.mk 10 (.mk 5 (.mk 3 .null .null) (.mk 7 .null .null)) (.mk 15 .null .null)⟩
      (by decide)).1,
    (global_invariant_preserved natLess_swo [10, 5, 15, 3, 7]
      ⟨.mk 10 (.mk 5 (.mk 3 .null .null) (.mk 7 .null .null)) (.mk 15 .null .null)⟩
      (by decide)).2.1⟩

/-! ## The shape after an insertion -/

theorem datum_at_null (q : List Dir) : datum_at (.null : Node T) q = none := by
  cases q <;> rfl

theorem datum_at_insert_path_append (less : T → T → Bool) (item : T) (n : Node T)
    (q : List Dir) : datum_at n (insert_path n item less ++ q) = none := by
  induction n with
  | null => simp [datum_at_null]
  | mk d l r ihl ihr =>
    simp only [insert_path]
    split
    · simpa [datum_at] using ihl
    · simpa [datum_at] using ihr

theorem datum_at_insert_impl_path (less : T → T → Bool) (item : T) (n : Node T) :
    datum_at (insert_impl n item less) (insert_path n item less) = some item := by
  induction n with
  | null => rfl
  | mk d l r ihl ihr =>
    simp only [insert_path, insert_impl]
    split
    · simpa [datum_at] using ihl
    · simpa [datum_at] using ihr

theorem datum_at_insert_impl_other (less : T → T → Bool) (item : T) (n : Node T) :
    ∀ q, q ≠ insert_path n item less →
      datum_at (insert_impl n item less) q = datum_at n q := by
  induction n with
  | null =>
    intro q hq
    cases q with
    | nil => exact absurd rfl hq
    | cons dir q' => cases dir <;> simp [insert_impl, datum_at, datum_at_null]
  | mk d l r ihl ihr =>
    intro q hq
    simp only [insert_path] at hq
    simp only [insert_impl]
    split
    · rename_i hlt
      rw [if_pos hlt] at hq
      cases q with
      | nil => rfl
      | cons dir q' =>
        cases dir with
        | left =>
          simp only [datum_at]
          exact ihl q' (fun heq => hq (by rw [heq]))
        | right => rfl
    · rename_i hlt
      rw [if_neg hlt] at hq
      cases q with
      | nil => rfl
      | cons dir q' =>
        cases dir with
        | left => rfl
        | right =>
          simp only [datum_at]
          exact ihr q' (fun heq => hq (by rw [heq]))

theorem insert_path_steps (less : T → T → Bool) (item : T) (n : Node T) :
    ∀ (q : List Dir) (dir : Dir) (rest : List Dir),
      insert_path n item less = q ++ dir :: rest →
      ∃ d, datum_at n q = some d ∧ (dir = .left ↔ less item d = true) := by
  induction n with
  | null =>
    intro q dir rest hp
    simp [insert_path] at hp
  | mk d l r ihl ihr =>
    intro q dir rest hp
    simp only [insert_path] at hp
    split at hp
    · rename_i hlt
      cases q with
      | nil =>
        simp only [List.nil_append, List.cons.injEq] at hp
        exact ⟨d, rfl, by simp [← hp.1, hlt]⟩
      | cons dir' q' =>
        simp only [List.cons_append, List.cons.injEq] at hp
        obtain ⟨d', h1, h2⟩ := ihl q' dir rest hp.2
        exact ⟨d', by rw [← hp.1]; simpa [datum_at] using h1, h2⟩
    · rename_i hlt
      cases q with
      | nil =>
        simp only [List.nil_append, List.cons.injEq] at hp
        exact ⟨d, rfl, by simp [← hp.1, hlt]⟩
      | cons dir' q' =>
        simp only [List.cons_append, List.cons.injEq] at hp
        obtain ⟨d', h1, h2⟩ := ihr q' dir rest hp.2
        exact ⟨d', by rw [← hp.1]; simpa [datum_at] using h1, h2⟩

theorem height_impl_insert_impl (less : T → T → Bool) (item : T) (n : Node T) :
    height_impl n ≤ height_impl (insert_impl n item less) ∧
      height_impl (insert_impl n item less) ≤ height_impl n + 1 := by
  induction n with
  | null => simp [insert_impl, height_impl]
  | mk d l r ihl ihr =>
    simp only [insert_impl]
    split
    · simp only [height_impl]
      omega
    · simp only [height_impl]
      omega

/-- C25: an insertion that returns only adds a leaf.  The new element sits at the position
where the descent of the insertion ends (a step left where the item is less than the
node's element, a step right otherwise), a position that held no node before; the new
node has no children; at every other position the tree holds what it held before; so
`size()` grows by exactly 1 and `height()` by at most 1. -/
theorem insert_adds_leaf (t t' : BinarySearchTree T) (item : T) (less : T → T → Bool)
    (it : Iterator T) (hins : t.insert item less = .returned t' it) :
    t'.root = insert_impl t.root item less ∧
      datum_at t.root (insert_path t.root item less) = none ∧
      datum_at t'.root (insert_path t.root item less) = some item ∧
      (∀ dir, datum_at t'.root (insert_path t.root item less ++ [dir]) = none) ∧
      (∀ q, q ≠ insert_path t.root item less → datum_at t'.root q = datum_at t.root q) ∧
      (∀ q dir rest, insert_path t.root item less = q ++ dir :: rest →
        ∃ d, datum_at t.root q = some d ∧ (dir = .left ↔ less item d = true)) ∧
      t'.size = t.size + 1 ∧ t.height ≤ t'.height ∧ t'.height ≤ t.height + 1 := by
  obtain ⟨-, ht', -⟩ := insert_returned_inv t t' item it hins
  subst ht'
  refine ⟨rfl, ?_, datum_at_insert_impl_path less item t.root, ?_,
    datum_at_insert_impl_other less item t.root, insert_path_steps less item t.root,
    size_impl_insert_impl less item t.root, (height_impl_insert_impl less item t.root).1,
    (height_impl_insert_impl less item t.root).2⟩
  · simpa using datum_at_insert_path_append less item t.root []
  · intro dir
    rw [datum_at_insert_impl_other less item t.root _ (by simp)]
    exact datum_at_insert_path_append less item t.root [dir]

theorem insert_adds_leaf_witness :
    (⟨.mk 10 (.mk 5 .null (.mk 7 .null .null)) .null⟩ : BinarySearchTree Nat).root =
        insert_impl (⟨.mk 10 (.mk 5 .null .null) .null⟩ : BinarySearchTree Nat).root 7 natLess ∧
      datum_at (⟨.mk 10 (.mk 5 .null (.mk 7 .null .null)) .null⟩ : BinarySearchTree Nat).root
          (insert_path (⟨.mk 10 (.mk 5 .null .null) .null⟩ : BinarySearchTree Nat).root 7 natLess) =
        some 7 ∧
      (⟨.mk 10 (.mk 5 .null (.mk 7 .null .null)) .null⟩ : BinarySearchTree Nat).size =
        (⟨.mk 10 (.mk 5 .null .null) .null⟩ : BinarySearchTree Nat).size + 1 :=
  ⟨(insert_adds_leaf ⟨.mk 10 (.mk 5 .null .null) .null⟩
      ⟨.mk 10 (.mk 5 .null (.mk 7 .null .null)) .null⟩ 7 natLess
      ⟨.mk 10 (.mk 5 .null (.mk 7 .null .null)) .null, .mk 7 .null .null⟩ (by decide)).1,
    (insert_adds_leaf ⟨.mk 10 (.mk 5 .null .null) .null⟩
      ⟨.mk 10 (.mk 5 .null (.mk 7 .null .null)) .null⟩ 7 natLess
      ⟨.mk 10 (.mk 5 .null (.mk 7 .null .null)) .null, .mk 7 .null .null⟩ (by decide)).2.2.1,
    (insert_adds_leaf ⟨.mk 10 (.mk 5 .null .null) .null⟩
      ⟨.mk 10 (.mk 5 .null (.mk 7 .null .null)) .null⟩ 7 natLess
      ⟨.mk 10 (.mk 5 .null (.mk 7 .null .null)) .null, .mk 7 .null .null⟩ (by decide)).2.2.2.2.2.2.1⟩

end Bst
